import Mathlib

/-!
Shallow embedding of the InfiniteInt arbitrary-precision integer library
(src/InfiniteInt.cpp together with the digit container declared in
src/DEIntQueue.h).

An `InfiniteInt` owns a sequence of decimal digits stored most-significant
first (the front of the C++ `DEIntQueue` is the most-significant digit) and
a sign flag.  The arithmetic helpers walk the digit sequences from the
least-significant (back) end, so the embeddings below reverse the digit
list, work least-significant first, and reverse back at the boundary.

C++ `int` arithmetic inside `InfiniteInt::operator int` is modelled as
32-bit two's-complement wraparound (`wrap32`); `%` and `/` on C++ `int`
truncate toward zero, which is `Int.tmod` / `Int.tdiv`.
-/

/-- Modelled from the spec: the DEIntQueue member-function definitions are not
among the given sources (only the declarations in src/DEIntQueue.h and the
tests are).  A queue is its front-to-back list of entries. -/
structure DEIntQueue where
  entries : List Int
deriving DecidableEq

namespace DEIntQueue

/-- Modelled from the spec: `numEntries()` is the O(1) count query. -/
def numEntries (q : DEIntQueue) : Int := q.entries.length

/-- Modelled from the spec: `front()` returns the first integer and fails with
an empty-container logic error on an empty queue. -/
def front (q : DEIntQueue) : Except Unit Int :=
  match q.entries with
  | [] => Except.error ()
  | d :: _ => Except.ok d

/-- Modelled from the spec: `back()` returns the last integer and fails with
an empty-container logic error on an empty queue. -/
def back (q : DEIntQueue) : Except Unit Int :=
  match q.entries.getLast? with
  | none => Except.error ()
  | some d => Except.ok d

/-- Modelled from the spec: `popFront()` removes the first integer, failing
with an empty-container logic error on an empty queue (in which case the
queue is not modified: no updated queue is produced). -/
def popFront (q : DEIntQueue) : Except Unit DEIntQueue :=
  match q.entries with
  | [] => Except.error ()
  | _ :: rest => Except.ok { entries := rest }

/-- Modelled from the spec: `popBack()` removes the last integer, failing
with an empty-container logic error on an empty queue. -/
def popBack (q : DEIntQueue) : Except Unit DEIntQueue :=
  match q.entries with
  | [] => Except.error ()
  | l => Except.ok { entries := l.dropLast }

end DEIntQueue

/-- The InfiniteInt representation: decimal digits most-significant first
(the `digits` DEIntQueue member) plus the `isNegative` sign flag. -/
structure InfiniteInt where
  digits : List Int
  isNegative : Bool
deriving DecidableEq

namespace InfiniteInt

/-- The second and third digit loops of `InfiniteInt::add` (which have
identical bodies, one for each operand that may outlive the other), plus the
final carry push: add the carry into each remaining digit, recording
`partialSum % 10` and carrying `partialSum / 10`; at the end push the final
carry if it is positive. -/
def carryLE : List Int → Int → List Int
  | d :: ds, c => Int.tmod (d + c) 10 :: carryLE ds (Int.tdiv (d + c) 10)
  | [], c => if 0 < c then [c] else []

/-- The first digit loop of `InfiniteInt::add`, acting on least-significant
first digit lists: while both operands have digits, add corresponding digits
plus the carry, record `partialSum % 10`, carry `partialSum / 10`; once one
operand is exhausted, `carryLE` finishes the remaining digits. -/
def addLE : List Int → List Int → Int → List Int
  | a :: as, b :: bs, c =>
    Int.tmod (a + b + c) 10 :: addLE as bs (Int.tdiv (a + b + c) 10)
  | as, [], c => carryLE as c
  | [], bs, c => carryLE bs c

/-- `InfiniteInt::add`: magnitude addition ignoring both signs; the result of
the C++ helper carries the default-constructed sign `false`. -/
def add (lhs rhs : InfiniteInt) : InfiniteInt :=
  { digits := (addLE lhs.digits.reverse rhs.digits.reverse 0).reverse
    isNegative := false }

/-- The digit loops of `InfiniteInt::subtractAbs`, acting on
least-significant first lists: subtract digit and borrow, adding 10 and
setting the borrow when the partial difference is negative.  As in the C++
loops, digits of `rhs` beyond the length of `lhs` are never visited. -/
def subLE : List Int → List Int → Int → List Int
  | a :: as, b :: bs, brw =>
    (if a - b - brw < 0 then a - b - brw + 10 else a - b - brw) ::
      subLE as bs (if a - b - brw < 0 then 1 else 0)
  | a :: as, [], brw =>
    (if a - brw < 0 then a - brw + 10 else a - brw) ::
      subLE as [] (if a - brw < 0 then 1 else 0)
  | [], _, _ => []

/-- `InfiniteInt::removeLeadingZeroes`: pop the front digit while more than
one digit remains and the front digit is zero. -/
def removeLeadingZeroes : List Int → List Int
  | [] => []
  | [d] => [d]
  | d :: e :: rest =>
    if d = 0 then removeLeadingZeroes (e :: rest) else d :: e :: rest

/-- `InfiniteInt::subtractAbs`: magnitude subtraction (larger minus smaller),
followed by the leading-zero normalization pass. -/
def subtractAbs (lhs rhs : InfiniteInt) : InfiniteInt :=
  { digits :=
      removeLeadingZeroes (subLE lhs.digits.reverse rhs.digits.reverse 0).reverse
    isNegative := false }

/-- The digit loop of `InfiniteInt::operator<` for operands of equal sign and
equal digit count, walking most-significant first with the comparison
direction flipped for negative operands. -/
def ltLoop : List Int → List Int → Bool → Bool
  | a :: as, b :: bs, neg =>
    if (!neg && decide (b < a)) || (neg && decide (a < b)) then false
    else if (!neg && decide (a < b)) || (neg && decide (b < a)) then true
    else ltLoop as bs neg
  | _, _, _ => false

/-- `InfiniteInt::operator<`: signs first, then digit counts (direction
flipped for negative operands), then the digit-by-digit loop. -/
def lt (a b : InfiniteInt) : Bool :=
  if !a.isNegative && b.isNegative then false
  else if a.isNegative && !b.isNegative then true
  else if a.digits.length ≠ b.digits.length then
    if a.isNegative then decide (b.digits.length < a.digits.length)
    else decide (a.digits.length < b.digits.length)
  else ltLoop a.digits b.digits a.isNegative

/-- The digit loop of `InfiniteInt::operator==` (reached only when the digit
counts agree). -/
def eqLoop : List Int → List Int → Bool
  | a :: as, b :: bs => if a ≠ b then false else eqLoop as bs
  | _, _ => true

/-- `InfiniteInt::operator==`: equal digit count, equal sign, and equal
digits in order. -/
def beq (a b : InfiniteInt) : Bool :=
  if a.digits.length ≠ b.digits.length ∨ a.isNegative ≠ b.isNegative then false
  else eqLoop a.digits b.digits

/-- INT_MIN for the 32-bit C++ `int`. -/
def intMinVal : Int := -2147483648

/-- INT_MAX for the 32-bit C++ `int`. -/
def intMaxVal : Int := 2147483647

/-- The body of the digit-pushing do/while loop of
`InfiniteInt::InfiniteInt(int)`: push `num % 10` at the front and divide by
10, until the quotient is zero.  At this point of the constructor the
remaining number is non-negative, so the loop is stated on `Nat`.  `fuel`
only bounds the number of iterations so that the recursion is structural;
`digitLoopAux` starts it at `n`, which always suffices because the quotient
shrinks strictly every iteration. -/
def digitLoopGo : Nat → Nat → List Int → List Int
  | 0, n, acc => ((n % 10 : Nat) : Int) :: acc
  | fuel + 1, n, acc =>
    let acc2 := ((n % 10 : Nat) : Int) :: acc
    if n / 10 = 0 then acc2 else digitLoopGo fuel (n / 10) acc2

/-- The digit-pushing do/while loop of `InfiniteInt::InfiniteInt(int)`. -/
def digitLoopAux (n : Nat) (acc : List Int) : List Int :=
  digitLoopGo n n acc

/-- `InfiniteInt::InfiniteInt(int)`: INT_MIN first has its least-significant
digit peeled off via `%`/`/` (truncating, so `abs(num % 10) = 8`), then a
negative input sets the sign and is replaced by its absolute value, and the
do/while loop pushes the remaining digits. -/
def ofInt (num : Int) : InfiniteInt :=
  let low : List Int :=
    if num = intMinVal then [((Int.tmod num 10).natAbs : Int)] else []
  let num1 : Int := if num = intMinVal then Int.tdiv num 10 else num
  let neg : Bool := decide (num1 < 0)
  let mag : Int := if num1 < 0 then -num1 else num1
  { digits := digitLoopAux mag.toNat low, isNegative := neg }

/-- 32-bit two's-complement wraparound, modelling overflow of C++ `int`
arithmetic (the spec describes the conversion's native-int arithmetic as
taken modulo 2^32). -/
def wrap32 (z : Int) : Int := (z + 2147483648) % 4294967296 - 2147483648

/-- `InfiniteInt::operator int`: range check against `InfiniteInt(INT_MAX)`
and `InfiniteInt(INT_MIN)` via `operator<` (throwing `std::range_error`,
modelled as `Except.error`), then most-significant-first accumulation
`result = result * 10 + digit` in C++ `int` arithmetic, finally negating
when the sign flag is set. -/
def toInt (x : InfiniteInt) : Except Unit Int :=
  if lt (ofInt intMaxVal) x || lt x (ofInt intMinVal) then Except.error ()
  else
    let r := x.digits.foldl (fun r d => wrap32 (wrap32 (10 * r) + d)) 0
    Except.ok (if x.isNegative then wrap32 (-r) else r)

/-- `InfiniteInt::subtract`: strip both signs, pick the operand with the
larger magnitude via `operator<` (ties keep `lhs`, matching the pointer
comparison `&larger == &lhsCopy` in the C++), subtract magnitudes, and fix
the sign unless the result equals `InfiniteInt(0)`. -/
def subtract (lhs rhs : InfiniteInt) : InfiniteInt :=
  let lhsCopy : InfiniteInt := { digits := lhs.digits, isNegative := false }
  let rhsCopy : InfiniteInt := { digits := rhs.digits, isNegative := false }
  let largerIsLhs : Bool := ! lt lhsCopy rhsCopy
  let larger := if largerIsLhs then lhsCopy else rhsCopy
  let smaller := if largerIsLhs then rhsCopy else lhsCopy
  let result := subtractAbs larger smaller
  if ! beq result (ofInt 0) then
    if (lhs.isNegative && largerIsLhs) || (!lhs.isNegative && !largerIsLhs) then
      { result with isNegative := true }
    else result
  else result

/-- `InfiniteInt::operator+`: matching signs add magnitudes and keep the
common sign; differing signs delegate to `subtract`. -/
def opAdd (a b : InfiniteInt) : InfiniteInt :=
  if a.isNegative = b.isNegative then
    { add a b with isNegative := a.isNegative }
  else subtract a b

/-- `InfiniteInt::operator-`: differing signs add magnitudes and take the
left operand's sign; matching signs delegate to `subtract`. -/
def opSub (a b : InfiniteInt) : InfiniteInt :=
  if a.isNegative ≠ b.isNegative then
    { add a b with isNegative := a.isNegative }
  else subtract a b

/-- The inner digit loop of `InfiniteInt::operator*`: multiply one digit of
the right operand against every digit of the left operand (least-significant
first), with carry propagation and a final carry push. -/
def mulDigitLE (r : Int) : List Int → Int → List Int
  | a :: as, c =>
    Int.tmod (a * r + c) 10 :: mulDigitLE r as (Int.tdiv (a * r + c) 10)
  | [], c => if 0 < c then [c] else []

/-- The outer loop of `InfiniteInt::operator*`: for each digit of the right
operand (least-significant first) build the partial product, append the
positional zeroes at the least-significant end, and accumulate with `add`. -/
def mulLoop (lhsLE : List Int) : List Int → Nat → InfiniteInt → InfiniteInt
  | [], _, acc => acc
  | r :: rs, k, acc =>
    let pr : InfiniteInt :=
      { digits := (mulDigitLE r lhsLE 0).reverse ++ List.replicate k 0
        isNegative := false }
    mulLoop lhsLE rs (k + 1) (add acc pr)

/-- `InfiniteInt::operator*`: zero check against `InfiniteInt(0)` via
`operator==`, then schoolbook long multiplication starting from an
accumulator whose default zero digit has been popped, with the final sign
the exclusive-or of the operand signs. -/
def opMul (a b : InfiniteInt) : InfiniteInt :=
  if beq a (ofInt 0) || beq b (ofInt 0) then ofInt 0
  else
    let res := mulLoop a.digits.reverse b.digits.reverse 0
      { digits := [], isNegative := false }
    { res with isNegative := a.isNegative != b.isNegative }

/-- `InfiniteInt::setNegative`: the public sign mutator. -/
def setNegative (negative : Bool) (x : InfiniteInt) : InfiniteInt :=
  { x with isNegative := negative }

/-- `operator>>(std::istream&, InfiniteInt&)`, over a character-list stream:
skip whitespace, consume a leading `-`, discard leading zeroes, read
consecutive digits (the first non-digit is put back, i.e. stays at the head
of the remaining stream); if no digits were read the value is set to zero
and a consumed `-` is put back. -/
def parseII (input : List Char) : InfiniteInt × List Char :=
  let s1 := input.dropWhile (fun c => c.isWhitespace)
  let negRead : Bool := match s1 with | '-' :: _ => true | _ => false
  let s2 := if negRead then s1.tail else s1
  let s3 := s2.dropWhile (fun c => c == '0')
  let ds := s3.takeWhile (fun c => c.isDigit)
  let s4 := s3.dropWhile (fun c => c.isDigit)
  if ds.isEmpty then
    ({ digits := [0], isNegative := false }, if negRead then '-' :: s4 else s4)
  else
    ({ digits := ds.map (fun c => (c.toNat : Int) - 48), isNegative := negRead }, s4)

/-- The value of a least-significant-first digit list. -/
def valLE : List Int → Int
  | [] => 0
  | d :: ds => d + 10 * valLE ds

/-- The value of a most-significant-first digit list (as stored in
`InfiniteInt.digits`). -/
def valBE (l : List Int) : Int := valLE l.reverse

/-- The integer represented by an InfiniteInt. -/
def value (x : InfiniteInt) : Int :=
  if x.isNegative then -valBE x.digits else valBE x.digits

/-- Every entry of the list is a decimal digit. -/
def digitsOK (l : List Int) : Prop := ∀ d ∈ l, 0 ≤ d ∧ d ≤ 9

/-- The last entry, if any, is positive (for least-significant-first lists:
no leading zero at the most-significant end). -/
def lastPos (l : List Int) : Prop := ∀ d, l.getLast? = some d → 1 ≤ d

/-- A well-formed most-significant-first digit list: non-empty, digits in
[0,9], and no leading zero unless the list is exactly [0]. -/
def normDigits : List Int → Prop
  | [] => False
  | d :: rest => digitsOK (d :: rest) ∧ (d = 0 → rest = [])

/-- The representation invariant of spec §3, as an executable check: at
least one digit, every digit in [0,9], no leading zero unless the value is
exactly zero (then exactly one digit 0), and zero never negative. -/
def checkInv (x : InfiniteInt) : Bool :=
  match x.digits with
  | [] => false
  | d :: rest =>
    (d :: rest).all (fun k => decide (0 ≤ k ∧ k ≤ 9)) &&
      (if d = 0 then rest.isEmpty && !x.isNegative else true)

/-- The representation invariant. -/
abbrev Inv (x : InfiniteInt) : Prop := checkInv x = true

/-- The exact (unbounded) value of the accumulator loop of `operator int`,
used to compare against the wrapped machine computation. -/
def valAcc (t : Int) : List Int → Int
  | [] => t
  | d :: ds => valAcc (10 * t + d) ds

end InfiniteInt

namespace InfiniteInt

/-! ### Basic facts about digit-list values -/

theorem tmod_ten_eq {s : Int} (h : 0 ≤ s) : Int.tmod s 10 = s % 10 := by
  rw [Int.tmod_eq_emod] <;> omega

theorem tdiv_ten_eq {s : Int} (h : 0 ≤ s) : Int.tdiv s 10 = s / 10 := by
  rw [Int.tdiv_eq_ediv] <;> omega

theorem valLE_append (xs ys : List Int) :
    valLE (xs ++ ys) = valLE xs + 10 ^ xs.length * valLE ys := by
  induction xs with
  | nil => simp [valLE]
  | cons x xs ih => simp [valLE, ih, pow_succ]; ring

theorem valBE_cons (d : Int) (ds : List Int) :
    valBE (d :: ds) = d * 10 ^ ds.length + valBE ds := by
  simp [valBE, List.reverse_cons, valLE_append, valLE]
  ring

theorem digitsOK_reverse {l : List Int} : digitsOK l.reverse ↔ digitsOK l := by
  simp [digitsOK]

theorem valLE_nonneg {l : List Int} (h : ∀ d ∈ l, 0 ≤ d) : 0 ≤ valLE l := by
  induction l with
  | nil => simp [valLE]
  | cons d ds ih =>
    have hd := h d (by simp)
    have hds := ih (fun d hd => h d (by simp [hd]))
    simp only [valLE]
    omega

theorem valBE_nonneg {l : List Int} (h : ∀ d ∈ l, 0 ≤ d) : 0 ≤ valBE l := by
  refine valLE_nonneg (fun d hd => h d ?_)
  exact List.mem_reverse.mp hd

theorem valLE_lt {l : List Int} (h : digitsOK l) : valLE l < 10 ^ l.length := by
  induction l with
  | nil => simp [valLE]
  | cons d ds ih =>
    have hd := h d (by simp)
    have hds := ih (fun d hd => h d (by simp [hd]))
    simp only [valLE, List.length_cons, pow_succ]
    omega

theorem valBE_lt {l : List Int} (h : digitsOK l) : valBE l < 10 ^ l.length := by
  have := valLE_lt (l := l.reverse) (digitsOK_reverse.mpr h)
  simpa [valBE] using this

theorem pow_ten_pos (n : Nat) : (0 : Int) < 10 ^ n := pow_pos (by norm_num) n

theorem pow_ten_le {m n : Nat} (h : m ≤ n) : (10 : Int) ^ m ≤ 10 ^ n :=
  pow_le_pow_right₀ (by norm_num) h

/-! ### Facts about well-formed digit lists -/

theorem normDigits_cons {d : Int} {rest : List Int} :
    normDigits (d :: rest) ↔ digitsOK (d :: rest) ∧ (d = 0 → rest = []) := by
  simp [normDigits]

theorem normDigits_digitsOK {l : List Int} (h : normDigits l) : digitsOK l := by
  cases l with
  | nil => exact absurd h (by simp [normDigits])
  | cons d rest => exact (normDigits_cons.mp h).1

theorem normDigits_ne_nil {l : List Int} (h : normDigits l) : l ≠ [] := by
  cases l with
  | nil => exact absurd h (by simp [normDigits])
  | cons d rest => simp

theorem valBE_lower {l : List Int} (h : normDigits l) (hne : l ≠ [0]) :
    10 ^ (l.length - 1) ≤ valBE l := by
  cases l with
  | nil => exact absurd h (by simp [normDigits])
  | cons d rest =>
    obtain ⟨hok, hz⟩ := normDigits_cons.mp h
    have hd1 : 1 ≤ d := by
      rcases (hok d (by simp)) with ⟨h0, _⟩
      rcases eq_or_lt_of_le h0 with h | h
      · exfalso
        have : rest = [] := hz h.symm
        exact hne (by simp [this, ← h])
      · omega
    have hrest : 0 ≤ valBE rest :=
      valBE_nonneg (fun k hk => (hok k (by simp [hk])).1)
    have := valBE_cons d rest
    have hP := pow_ten_pos rest.length
    simp only [List.length_cons, Nat.add_sub_cancel]
    nlinarith

theorem valBE_pos {l : List Int} (h : normDigits l) (hne : l ≠ [0]) :
    1 ≤ valBE l := by
  have := valBE_lower h hne
  have := pow_ten_pos (l.length - 1)
  omega

theorem valBE_zero_iff {l : List Int} (h : normDigits l) :
    valBE l = 0 ↔ l = [0] := by
  constructor
  · intro hv
    by_contra hne
    have := valBE_pos h hne
    omega
  · intro hl; simp [hl, valBE, valLE]

theorem head_pos_of_valBE_ge {d : Int} {rest : List Int}
    (hok : digitsOK (d :: rest)) (hge : 10 ^ rest.length ≤ valBE (d :: rest)) :
    1 ≤ d := by
  by_contra hlt
  have hd0 : d = 0 := by
    rcases hok d (by simp) with ⟨h0, _⟩; omega
  subst hd0
  have hrest : valBE rest < 10 ^ rest.length :=
    valBE_lt (fun k hk => hok k (by simp [hk]))
  have hcons := valBE_cons 0 rest
  rw [zero_mul, zero_add] at hcons
  omega

theorem normDigits_of_lower {l : List Int} (hok : digitsOK l) (hne : l ≠ [])
    (hge : 10 ^ (l.length - 1) ≤ valBE l) : normDigits l := by
  cases l with
  | nil => exact absurd rfl hne
  | cons d rest =>
    refine normDigits_cons.mpr ⟨hok, fun hd0 => ?_⟩
    have h1 : 1 ≤ d := by
      refine head_pos_of_valBE_ge hok ?_
      simpa using hge
    omega

/-! ### Injectivity of the value on normalized digit lists -/

theorem mul_pow_add_inj {P d e x y : Int} (hP : 0 < P)
    (hx0 : 0 ≤ x) (hx : x < P) (hy0 : 0 ≤ y) (hy : y < P)
    (h : d * P + x = e * P + y) : d = e ∧ x = y := by
  have hde : (d - e) * P = y - x := by ring_nf; linarith
  rcases lt_trichotomy d e with hlt | heq | hgt
  · exfalso
    have h1 : d - e ≤ -1 := by omega
    have h2 : (d - e) * P ≤ (-1) * P := by
      exact mul_le_mul_of_nonneg_right h1 (le_of_lt hP)
    omega
  · constructor
    · exact heq
    · rw [heq] at h; omega
  · exfalso
    have h1 : 1 ≤ d - e := by omega
    have h2 : 1 * P ≤ (d - e) * P := by
      exact mul_le_mul_of_nonneg_right h1 (le_of_lt hP)
    omega

theorem valBE_inj_of_len {l m : List Int} (hlen : l.length = m.length)
    (hl : digitsOK l) (hm : digitsOK m) (hv : valBE l = valBE m) : l = m := by
  induction l generalizing m with
  | nil => cases m with
    | nil => rfl
    | cons e es => simp at hlen
  | cons d ds ih =>
    cases m with
    | nil => simp at hlen
    | cons e es =>
      have hlen2 : ds.length = es.length := by simpa using hlen
      have hds : digitsOK ds := fun k hk => hl k (by simp [hk])
      have hes : digitsOK es := fun k hk => hm k (by simp [hk])
      have h1 := valBE_cons d ds
      have h2 := valBE_cons e es
      rw [h1, h2, hlen2] at hv
      have := mul_pow_add_inj (pow_ten_pos es.length)
        (valBE_nonneg (fun k hk => (hds k hk).1)) (hlen2 ▸ valBE_lt hds)
        (valBE_nonneg (fun k hk => (hes k hk).1)) (valBE_lt hes) hv
      rcases this with ⟨hde, hrest⟩
      rw [hde, ih hlen2 hds hes hrest]

theorem valBE_inj {l m : List Int} (hl : normDigits l) (hm : normDigits m)
    (hv : valBE l = valBE m) : l = m := by
  rcases Nat.lt_trichotomy l.length m.length with hlt | heq | hgt
  · exfalso
    have hm0 : m ≠ [0] := by
      intro h
      rw [h] at hv hlt
      rw [(valBE_zero_iff hl).mp (by simpa [valBE, valLE] using hv)] at hlt
      simp at hlt
    have h1 : valBE l < 10 ^ l.length := valBE_lt (normDigits_digitsOK hl)
    have h2 : 10 ^ (m.length - 1) ≤ valBE m := valBE_lower hm hm0
    have h3 : (10 : Int) ^ l.length ≤ 10 ^ (m.length - 1) :=
      pow_ten_le (by omega)
    omega
  · exact valBE_inj_of_len heq (normDigits_digitsOK hl) (normDigits_digitsOK hm) hv
  · exfalso
    have hl0 : l ≠ [0] := by
      intro h
      rw [h] at hv hgt
      rw [(valBE_zero_iff hm).mp (by simpa [valBE, valLE] using hv.symm)] at hgt
      simp at hgt
    have h1 : valBE m < 10 ^ m.length := valBE_lt (normDigits_digitsOK hm)
    have h2 : 10 ^ (l.length - 1) ≤ valBE l := valBE_lower hl hl0
    have h3 : (10 : Int) ^ m.length ≤ 10 ^ (l.length - 1) :=
      pow_ten_le (by omega)
    omega

end InfiniteInt

namespace InfiniteInt

/-! ### Correctness of operator== and operator< -/

theorem eqLoop_iff {as bs : List Int} (hlen : as.length = bs.length) :
    eqLoop as bs = true ↔ as = bs := by
  induction as generalizing bs with
  | nil =>
    cases bs with
    | nil => simp [eqLoop]
    | cons b bs => simp at hlen
  | cons a as ih =>
    cases bs with
    | nil => simp at hlen
    | cons b bs =>
      simp only [eqLoop]
      by_cases hab : a = b
      · simp [hab, ih (by simpa using hlen)]
      · simp [hab]

theorem beq_iff {a b : InfiniteInt} : beq a b = true ↔ a = b := by
  cases a with | mk ad an =>
  cases b with | mk bd bn =>
  simp only [beq, mk.injEq]
  by_cases hcond : ad.length ≠ bd.length ∨ an ≠ bn
  · rw [if_pos hcond]
    refine iff_of_false (by simp) ?_
    rintro ⟨h1, h2⟩
    subst h1; subst h2
    rcases hcond with h | h <;> exact h rfl
  · rw [if_neg hcond]
    push_neg at hcond
    rw [eqLoop_iff hcond.1]
    simp [hcond.2]

theorem ltLoop_swap (as bs : List Int) :
    ltLoop as bs true = ltLoop bs as false := by
  induction as generalizing bs with
  | nil => cases bs <;> simp [ltLoop]
  | cons a as ih =>
    cases bs with
    | nil => simp [ltLoop]
    | cons b bs =>
      simp only [ltLoop, Bool.not_true, Bool.not_false, Bool.false_and,
        Bool.true_and, Bool.false_or, Bool.or_false]
      by_cases h1 : a < b
      · simp [h1]
      · by_cases h2 : b < a <;> simp [h1, h2, ih]

theorem ltLoop_false_iff {as bs : List Int} (hlen : as.length = bs.length)
    (ha : digitsOK as) (hb : digitsOK bs) :
    ltLoop as bs false = true ↔ valBE as < valBE bs := by
  induction as generalizing bs with
  | nil =>
    cases bs with
    | nil => simp [ltLoop, valBE, valLE]
    | cons b bs => simp at hlen
  | cons a as ih =>
    cases bs with
    | nil => simp at hlen
    | cons b bs =>
      have hlen2 : as.length = bs.length := by simpa using hlen
      have has : digitsOK as := fun k hk => ha k (by simp [hk])
      have hbs : digitsOK bs := fun k hk => hb k (by simp [hk])
      have hu0 : 0 ≤ valBE as := valBE_nonneg (fun k hk => (has k hk).1)
      have hu1 : valBE as < 10 ^ as.length := valBE_lt has
      have hv0 : 0 ≤ valBE bs := valBE_nonneg (fun k hk => (hbs k hk).1)
      have hv1 : valBE bs < 10 ^ bs.length := valBE_lt hbs
      have hca := valBE_cons a as
      have hcb := valBE_cons b bs
      have hP := pow_ten_pos bs.length
      rw [hlen2] at hu1 hca
      simp only [ltLoop, Bool.not_false, Bool.true_and, Bool.false_and,
        Bool.or_false, Bool.false_or]
      rcases lt_trichotomy a b with h | h | h
      · have hnb2 : ¬ b < a := by omega
        rw [if_neg (by simpa using hnb2), if_pos (by simpa using h)]
        refine iff_of_true rfl ?_
        have hmul : (a + 1) * 10 ^ bs.length ≤ b * 10 ^ bs.length :=
          mul_le_mul_of_nonneg_right (by omega) (le_of_lt hP)
        have hexp : (a + 1) * 10 ^ bs.length
            = a * 10 ^ bs.length + 10 ^ bs.length := by ring
        omega
      · subst h
        rw [if_neg (by simp), if_neg (by simp)]
        rw [ih hlen2 has hbs]
        omega
      · rw [if_pos (by simpa using h)]
        refine iff_of_false (by simp) ?_
        have hmul : (b + 1) * 10 ^ bs.length ≤ a * 10 ^ bs.length :=
          mul_le_mul_of_nonneg_right (by omega) (le_of_lt hP)
        have hexp : (b + 1) * 10 ^ bs.length
            = b * 10 ^ bs.length + 10 ^ bs.length := by ring
        omega

theorem Inv_iff {x : InfiniteInt} :
    Inv x ↔ normDigits x.digits ∧ (x.digits = [0] → x.isNegative = false) := by
  cases x with | mk xd xn =>
  cases xd with
  | nil => simp [Inv, checkInv, normDigits]
  | cons d rest =>
    simp only [Inv, checkInv]
    by_cases hd : d = 0
    · subst hd
      rw [if_pos rfl]
      simp only [Bool.and_eq_true, List.all_eq_true, decide_eq_true_eq,
        List.isEmpty_iff, Bool.not_eq_true', normDigits_cons, digitsOK,
        List.cons.injEq, true_and]
      tauto
    · rw [if_neg hd]
      simp only [Bool.and_true, List.all_eq_true, decide_eq_true_eq,
        normDigits_cons, digitsOK, List.cons.injEq, hd, false_and,
        false_implies, and_true]

theorem Inv.norm {x : InfiniteInt} (h : Inv x) : normDigits x.digits :=
  (Inv_iff.mp h).1

theorem Inv.zero_sign {x : InfiniteInt} (h : Inv x) :
    x.digits = [0] → x.isNegative = false :=
  (Inv_iff.mp h).2

theorem Inv.mag_nonneg {x : InfiniteInt} (h : Inv x) : 0 ≤ valBE x.digits :=
  valBE_nonneg (fun k hk => (normDigits_digitsOK h.norm k hk).1)

theorem Inv.neg_mag_pos {x : InfiniteInt} (h : Inv x)
    (hn : x.isNegative = true) : 1 ≤ valBE x.digits := by
  refine valBE_pos h.norm (fun h0 => ?_)
  rw [h.zero_sign h0] at hn
  exact Bool.false_ne_true hn

theorem valBE_lt_of_len {l m : List Int} (hl : normDigits l) (hm : normDigits m)
    (h : l.length < m.length) : valBE l < valBE m := by
  have hm0 : m ≠ [0] := by
    intro h0
    subst h0
    have h1 := List.length_pos_of_ne_nil (normDigits_ne_nil hl)
    simp only [List.length_cons, List.length_nil] at h
    omega
  have h1 : valBE l < 10 ^ l.length := valBE_lt (normDigits_digitsOK hl)
  have h2 : 10 ^ (m.length - 1) ≤ valBE m := valBE_lower hm hm0
  have h3 : (10 : Int) ^ l.length ≤ 10 ^ (m.length - 1) := pow_ten_le (by omega)
  omega

theorem value_mk_false (d : List Int) :
    value { digits := d, isNegative := false } = valBE d := by
  simp [value]

theorem value_mk_true (d : List Int) :
    value { digits := d, isNegative := true } = -valBE d := by
  simp [value]

theorem lt_mk_pos_neg (ad bd : List Int) :
    lt { digits := ad, isNegative := false } { digits := bd, isNegative := true }
      = false := by
  simp [lt]

theorem lt_mk_neg_pos (ad bd : List Int) :
    lt { digits := ad, isNegative := true } { digits := bd, isNegative := false }
      = true := by
  simp [lt]

theorem lt_mk_pos_pos (ad bd : List Int) :
    lt { digits := ad, isNegative := false } { digits := bd, isNegative := false }
      = if ad.length ≠ bd.length then decide (ad.length < bd.length)
        else ltLoop ad bd false := by
  simp [lt]

theorem lt_mk_neg_neg (ad bd : List Int) :
    lt { digits := ad, isNegative := true } { digits := bd, isNegative := true }
      = if ad.length ≠ bd.length then decide (bd.length < ad.length)
        else ltLoop ad bd true := by
  simp [lt]

theorem lt_iff_value {a b : InfiniteInt} (ha : Inv a) (hb : Inv b) :
    lt a b = true ↔ value a < value b := by
  cases a with | mk ad an =>
  cases b with | mk bd bn =>
  have hna : normDigits ad := ha.norm
  have hnb : normDigits bd := hb.norm
  have hma : 0 ≤ valBE ad := ha.mag_nonneg
  have hmb : 0 ≤ valBE bd := hb.mag_nonneg
  cases an <;> cases bn
  · -- both non-negative
    rw [lt_mk_pos_pos, value_mk_false, value_mk_false]
    by_cases hlen : ad.length = bd.length
    · rw [if_neg (by simp [hlen])]
      exact ltLoop_false_iff hlen (normDigits_digitsOK hna)
        (normDigits_digitsOK hnb)
    · rw [if_pos hlen]
      simp only [decide_eq_true_eq]
      constructor
      · exact fun h => valBE_lt_of_len hna hnb h
      · intro h
        by_contra h2
        push_neg at h2
        rcases Nat.lt_or_ge bd.length ad.length with h3 | h3
        · have := valBE_lt_of_len hnb hna h3
          omega
        · exact hlen (by omega)
  · -- a non-negative, b negative
    have hb1 : 1 ≤ valBE bd := hb.neg_mag_pos rfl
    rw [lt_mk_pos_neg, value_mk_false, value_mk_true]
    refine iff_of_false (by simp) ?_
    omega
  · -- a negative, b non-negative
    have ha1 : 1 ≤ valBE ad := ha.neg_mag_pos rfl
    rw [lt_mk_neg_pos, value_mk_true, value_mk_false]
    refine iff_of_true rfl ?_
    omega
  · -- both negative
    have ha1 : 1 ≤ valBE ad := ha.neg_mag_pos rfl
    have hb1 : 1 ≤ valBE bd := hb.neg_mag_pos rfl
    rw [lt_mk_neg_neg, value_mk_true, value_mk_true]
    by_cases hlen : ad.length = bd.length
    · rw [if_neg (by simp [hlen]), ltLoop_swap]
      rw [ltLoop_false_iff hlen.symm (normDigits_digitsOK hnb)
        (normDigits_digitsOK hna)]
      omega
    · rw [if_pos hlen]
      simp only [decide_eq_true_eq]
      constructor
      · intro h
        have := valBE_lt_of_len hnb hna h
        omega
      · intro h
        by_contra h2
        push_neg at h2
        rcases Nat.lt_or_ge ad.length bd.length with h3 | h3
        · have := valBE_lt_of_len hna hnb h3
          omega
        · exact hlen (by omega)

theorem value_inj {a b : InfiniteInt} (ha : Inv a) (hb : Inv b)
    (h : value a = value b) : a = b := by
  cases a with | mk ad an =>
  cases b with | mk bd bn =>
  have hna : normDigits ad := ha.norm
  have hnb : normDigits bd := hb.norm
  have hma : 0 ≤ valBE ad := ha.mag_nonneg
  have hmb : 0 ≤ valBE bd := hb.mag_nonneg
  cases an <;> cases bn
  · rw [value_mk_false, value_mk_false] at h
    rw [valBE_inj hna hnb h]
  · have hb1 : 1 ≤ valBE bd := hb.neg_mag_pos rfl
    rw [value_mk_false, value_mk_true] at h
    omega
  · have ha1 : 1 ≤ valBE ad := ha.neg_mag_pos rfl
    rw [value_mk_true, value_mk_false] at h
    omega
  · rw [value_mk_true, value_mk_true] at h
    rw [valBE_inj hna hnb (by omega)]

theorem beq_iff_value {a b : InfiniteInt} (ha : Inv a) (hb : Inv b) :
    beq a b = true ↔ value a = value b := by
  rw [beq_iff]
  constructor
  · intro h; rw [h]
  · exact fun h => value_inj ha hb h

end InfiniteInt

namespace InfiniteInt

/-! ### Correctness of the magnitude addition helper -/

theorem digitsOK_cons {x : Int} {l : List Int} :
    digitsOK (x :: l) ↔ (0 ≤ x ∧ x ≤ 9) ∧ digitsOK l := by
  simp [digitsOK, List.forall_mem_cons]

theorem lastPos_cons {x : Int} {l : List Int} (h : l ≠ []) :
    lastPos (x :: l) ↔ lastPos l := by
  cases l with
  | nil => exact absurd rfl h
  | cons y ys => simp [lastPos, List.getLast?_cons_cons]

theorem carryLE_val {ds : List Int} : ∀ {c : Int},
    (∀ d ∈ ds, 0 ≤ d) → 0 ≤ c → valLE (carryLE ds c) = valLE ds + c := by
  induction ds with
  | nil =>
    intro c _ hc
    by_cases h : 0 < c
    · simp [carryLE, h, valLE]
    · have hc0 : c = 0 := by omega
      simp [carryLE, h, valLE, hc0]
  | cons d ds ih =>
    intro c hd hc
    have hd0 : 0 ≤ d := hd d (by simp)
    have hds : ∀ k ∈ ds, 0 ≤ k := fun k hk => hd k (by simp [hk])
    have hs : (0 : Int) ≤ d + c := by omega
    simp only [carryLE, valLE]
    rw [ih hds (Int.tdiv_nonneg hs (by norm_num)), tmod_ten_eq hs,
      tdiv_ten_eq hs]
    omega

theorem carryLE_digitsOK {ds : List Int} : ∀ {c : Int},
    digitsOK ds → 0 ≤ c → c ≤ 1 → digitsOK (carryLE ds c) := by
  induction ds with
  | nil =>
    intro c _ hc0 hc1
    by_cases h : 0 < c
    · simp only [carryLE, if_pos h]
      intro d hd
      simp at hd
      omega
    · simp only [carryLE, if_neg h]
      intro d hd
      simp at hd
  | cons d ds ih =>
    intro c hd hc0 hc1
    have hd0 := hd d (by simp)
    have hds : digitsOK ds := fun k hk => hd k (by simp [hk])
    have hs : (0 : Int) ≤ d + c := by omega
    simp only [carryLE]
    rw [digitsOK_cons]
    refine ⟨?_, ih hds (Int.tdiv_nonneg hs (by norm_num)) ?_⟩
    · rw [tmod_ten_eq hs]; omega
    · rw [tdiv_ten_eq hs]; omega

theorem carryLE_len {ds : List Int} : ∀ {c : Int},
    digitsOK ds → 0 ≤ c → c ≤ 1 →
    (carryLE ds c).length = ds.length ∨
      ((carryLE ds c).length = ds.length + 1 ∧ lastPos (carryLE ds c)) := by
  induction ds with
  | nil =>
    intro c _ hc0 hc1
    by_cases h : 0 < c
    · right
      simp only [carryLE, if_pos h]
      constructor
      · simp
      · intro d hd
        simp [List.getLast?] at hd
        omega
    · left
      simp [carryLE, h]
  | cons d ds ih =>
    intro c hd hc0 hc1
    have hd0 := hd d (by simp)
    have hds : digitsOK ds := fun k hk => hd k (by simp [hk])
    have hs : (0 : Int) ≤ d + c := by omega
    have hcd0 : 0 ≤ Int.tdiv (d + c) 10 := Int.tdiv_nonneg hs (by norm_num)
    have hcd1 : Int.tdiv (d + c) 10 ≤ 1 := by
      rw [tdiv_ten_eq hs]; omega
    simp only [carryLE]
    rcases ih hds hcd0 hcd1 with h1 | ⟨h1, h2⟩
    · left
      simp [h1]
    · right
      have hne : carryLE ds (Int.tdiv (d + c) 10) ≠ [] := by
        intro h0
        rw [h0] at h1
        simp only [List.length_nil] at h1
        omega
      constructor
      · simp [h1]
      · rw [lastPos_cons hne]
        exact h2

theorem addLE_val {as : List Int} : ∀ {bs : List Int} {c : Int},
    (∀ d ∈ as, 0 ≤ d) → (∀ d ∈ bs, 0 ≤ d) → 0 ≤ c →
    valLE (addLE as bs c) = valLE as + valLE bs + c := by
  induction as with
  | nil =>
    intro bs c _ hb hc
    cases bs with
    | nil =>
      show valLE (carryLE [] c) = _
      rw [carryLE_val (fun d hd => absurd hd (List.not_mem_nil d)) hc]
      simp [valLE]
    | cons b bs =>
      show valLE (carryLE (b :: bs) c) = _
      rw [carryLE_val hb hc]
      simp [valLE]
  | cons a as ih =>
    intro bs c ha hb hc
    have ha0 : 0 ≤ a := ha a (by simp)
    have has : ∀ d ∈ as, 0 ≤ d := fun d hd => ha d (by simp [hd])
    cases bs with
    | nil =>
      show valLE (carryLE (a :: as) c) = _
      rw [carryLE_val ha hc]
      simp [valLE]
    | cons b bs =>
      have hb0 : 0 ≤ b := hb b (by simp)
      have hbs : ∀ d ∈ bs, 0 ≤ d := fun d hd => hb d (by simp [hd])
      have hs : (0 : Int) ≤ a + b + c := by omega
      simp only [addLE, valLE]
      rw [ih has hbs (Int.tdiv_nonneg hs (by norm_num)), tmod_ten_eq hs,
        tdiv_ten_eq hs]
      omega

theorem addLE_digitsOK {as : List Int} : ∀ {bs : List Int} {c : Int},
    digitsOK as → digitsOK bs → 0 ≤ c → c ≤ 1 →
    digitsOK (addLE as bs c) := by
  induction as with
  | nil =>
    intro bs c ha hb hc0 hc1
    cases bs with
    | nil => exact carryLE_digitsOK ha hc0 hc1
    | cons b bs => exact carryLE_digitsOK hb hc0 hc1
  | cons a as ih =>
    intro bs c ha hb hc0 hc1
    have ha0 := ha a (by simp)
    have has : digitsOK as := fun d hd => ha d (by simp [hd])
    cases bs with
    | nil => exact carryLE_digitsOK ha hc0 hc1
    | cons b bs =>
      have hb0 := hb b (by simp)
      have hbs : digitsOK bs := fun d hd => hb d (by simp [hd])
      have hs : (0 : Int) ≤ a + b + c := by omega
      simp only [addLE]
      rw [digitsOK_cons]
      refine ⟨?_, ih has hbs (Int.tdiv_nonneg hs (by norm_num)) ?_⟩
      · rw [tmod_ten_eq hs]; omega
      · rw [tdiv_ten_eq hs]; omega

theorem addLE_len {as : List Int} : ∀ {bs : List Int} {c : Int},
    digitsOK as → digitsOK bs → 0 ≤ c → c ≤ 1 →
    (addLE as bs c).length = max as.length bs.length ∨
      ((addLE as bs c).length = max as.length bs.length + 1 ∧
        lastPos (addLE as bs c)) := by
  induction as with
  | nil =>
    intro bs c ha hb hc0 hc1
    cases bs with
    | nil => simpa using carryLE_len ha hc0 hc1
    | cons b bs =>
      have h := carryLE_len hb hc0 hc1 (c := c)
      simpa using h
  | cons a as ih =>
    intro bs c ha hb hc0 hc1
    have ha0 := ha a (by simp)
    have has : digitsOK as := fun d hd => ha d (by simp [hd])
    cases bs with
    | nil =>
      have h := carryLE_len ha hc0 hc1 (c := c)
      simpa using h
    | cons b bs =>
      have hb0 := hb b (by simp)
      have hbs : digitsOK bs := fun d hd => hb d (by simp [hd])
      have hs : (0 : Int) ≤ a + b + c := by omega
      have hcd0 : 0 ≤ Int.tdiv (a + b + c) 10 := Int.tdiv_nonneg hs (by norm_num)
      have hcd1 : Int.tdiv (a + b + c) 10 ≤ 1 := by
        rw [tdiv_ten_eq hs]; omega
      simp only [addLE]
      rcases ih has hbs hcd0 hcd1 with h1 | ⟨h1, h2⟩
      · left
        simp only [List.length_cons, h1]
        omega
      · right
        have hne : addLE as bs (Int.tdiv (a + b + c) 10) ≠ [] := by
          intro h0
          rw [h0] at h1
          simp only [List.length_nil] at h1
          omega
        constructor
        · simp only [List.length_cons, h1]
          omega
        · rw [lastPos_cons hne]
          exact h2

theorem lower_of_sum {l m : List Int} (hl : normDigits l) (hm : normDigits m)
    (hsum : 1 ≤ valBE l + valBE m) :
    10 ^ (max l.length m.length - 1) ≤ valBE l + valBE m := by
  have h1l := List.length_pos_of_ne_nil (normDigits_ne_nil hl)
  have h1m := List.length_pos_of_ne_nil (normDigits_ne_nil hm)
  have hl0 : 0 ≤ valBE l := valBE_nonneg (fun k hk => (normDigits_digitsOK hl k hk).1)
  have hm0 : 0 ≤ valBE m := valBE_nonneg (fun k hk => (normDigits_digitsOK hm k hk).1)
  rcases Nat.le_total m.length l.length with hle | hle
  · rw [Nat.max_eq_left hle]
    by_cases hl1 : l = [0]
    · have hlen1 : l.length = 1 := by rw [hl1]; rfl
      have hml : m.length = 1 := by omega
      have hv : valBE l = 0 := by rw [hl1]; rfl
      rw [hlen1]
      simpa [hv] using hsum
    · have := valBE_lower hl hl1
      omega
  · rw [Nat.max_eq_right hle]
    by_cases hm1 : m = [0]
    · have hlen1 : m.length = 1 := by rw [hm1]; rfl
      have hml : l.length = 1 := by omega
      have hv : valBE m = 0 := by rw [hm1]; rfl
      rw [hlen1]
      simpa [hv] using hsum
    · have := valBE_lower hm hm1
      omega

theorem add_spec {a b : InfiniteInt} (ha : digitsOK a.digits)
    (hb : digitsOK b.digits) :
    valBE (add a b).digits = valBE a.digits + valBE b.digits ∧
      digitsOK (add a b).digits ∧ (add a b).isNegative = false := by
  have hra : ∀ d ∈ a.digits.reverse, 0 ≤ d := fun d hd =>
    (ha d (List.mem_reverse.mp hd)).1
  have hrb : ∀ d ∈ b.digits.reverse, 0 ≤ d := fun d hd =>
    (hb d (List.mem_reverse.mp hd)).1
  refine ⟨?_, ?_, rfl⟩
  · show valBE (addLE a.digits.reverse b.digits.reverse 0).reverse = _
    rw [valBE, List.reverse_reverse,
      addLE_val hra hrb le_rfl]
    simp [valBE]
  · show digitsOK (addLE a.digits.reverse b.digits.reverse 0).reverse
    rw [digitsOK_reverse]
    exact addLE_digitsOK (digitsOK_reverse.mpr ha) (digitsOK_reverse.mpr hb)
      le_rfl (by norm_num)

theorem add_norm {a b : InfiniteInt} (hna : normDigits a.digits)
    (hnb : normDigits b.digits) : normDigits (add a b).digits := by
  have hoa := normDigits_digitsOK hna
  have hob := normDigits_digitsOK hnb
  have hval := (add_spec hoa hob).1
  have hok := (add_spec hoa hob).2.1
  by_cases hzero : valBE a.digits + valBE b.digits = 0
  · -- both operands are [0]; the sum is literally [0]
    have hApos : 0 ≤ valBE a.digits :=
      valBE_nonneg (fun k hk => (hoa k hk).1)
    have hBpos : 0 ≤ valBE b.digits :=
      valBE_nonneg (fun k hk => (hob k hk).1)
    have hA : a.digits = [0] := (valBE_zero_iff hna).mp (by omega)
    have hB : b.digits = [0] := (valBE_zero_iff hnb).mp (by omega)
    show normDigits (addLE a.digits.reverse b.digits.reverse 0).reverse
    rw [hA, hB]
    have hrev : ([0] : List Int).reverse = [0] := rfl
    rw [hrev]
    have hcomp : addLE [0] [0] 0 = [0] := by decide
    rw [hcomp, hrev]
    refine normDigits_cons.mpr ⟨?_, fun _ => rfl⟩
    intro d hd
    simp only [List.mem_singleton] at hd
    subst hd
    exact ⟨le_refl 0, by norm_num⟩
  · have hsum : 1 ≤ valBE a.digits + valBE b.digits := by
      have hApos : 0 ≤ valBE a.digits :=
        valBE_nonneg (fun k hk => (hoa k hk).1)
      have hBpos : 0 ≤ valBE b.digits :=
        valBE_nonneg (fun k hk => (hob k hk).1)
      omega
    have hlen := addLE_len (digitsOK_reverse.mpr hoa) (digitsOK_reverse.mpr hob)
      (le_refl (0 : Int)) (by norm_num)
    rcases hlen with h1 | ⟨h1, h2⟩
    · -- no final carry: the length is the larger operand length
      refine normDigits_of_lower hok ?_ ?_
      · intro h0
        have : (add a b).digits.length = 0 := by rw [h0]; rfl
        have h1l := List.length_pos_of_ne_nil (normDigits_ne_nil hna)
        show False
        have hlen2 : (add a b).digits.length
            = (addLE a.digits.reverse b.digits.reverse 0).length := by
          show ((addLE a.digits.reverse b.digits.reverse 0).reverse).length = _
          simp
        rw [hlen2, h1] at this
        rw [List.length_reverse, List.length_reverse] at this
        omega
      · have hlen2 : (add a b).digits.length
            = (addLE a.digits.reverse b.digits.reverse 0).length := by
          show ((addLE a.digits.reverse b.digits.reverse 0).reverse).length = _
          simp
        rw [hval, hlen2, h1]
        simp only [List.length_reverse]
        exact lower_of_sum hna hnb hsum
    · -- final carry: the most-significant digit is the carry, at least 1
      have hne : addLE a.digits.reverse b.digits.reverse 0 ≠ [] := by
        intro h0
        rw [h0] at h1
        simp at h1
      show normDigits (addLE a.digits.reverse b.digits.reverse 0).reverse
      rcases List.exists_cons_of_ne_nil
        (by simpa using hne : (addLE a.digits.reverse b.digits.reverse 0).reverse ≠ [])
        with ⟨h, t, hht⟩
      rw [hht]
      refine normDigits_cons.mpr ⟨?_, fun hh0 => ?_⟩
      · rw [← hht]
        show digitsOK (add a b).digits
        exact hok
      · exfalso
        have hhead : (addLE a.digits.reverse b.digits.reverse 0).reverse.head? = some h := by
          rw [hht]; rfl
        rw [List.head?_reverse] at hhead
        have := h2 h hhead
        omega

end InfiniteInt

namespace InfiniteInt

/-! ### Correctness of the magnitude subtraction helpers -/

theorem subLE_spec {as : List Int} : ∀ {bs : List Int} {brw : Int},
    digitsOK as → digitsOK bs → 0 ≤ brw → brw ≤ 1 →
    bs.length ≤ as.length → valLE bs + brw ≤ valLE as →
    digitsOK (subLE as bs brw) ∧ (subLE as bs brw).length = as.length ∧
      valLE (subLE as bs brw) = valLE as - valLE bs - brw := by
  induction as with
  | nil =>
    intro bs brw ha hb hb0 hb1 hlen hval
    have hbs : bs = [] := List.length_eq_zero.mp (by simpa using hlen)
    subst hbs
    simp only [valLE] at hval
    refine ⟨fun d hd => absurd hd (List.not_mem_nil d), by simp [subLE], ?_⟩
    simp only [subLE, valLE]
    omega
  | cons a as ih =>
    intro bs brw ha hb hb0 hb1 hlen hval
    have ha0 := ha a (by simp)
    have has : digitsOK as := fun d hd => ha d (by simp [hd])
    have hX0 : 0 ≤ valLE as := valLE_nonneg (fun d hd => (has d hd).1)
    cases bs with
    | nil =>
      simp only [valLE] at hval
      by_cases hneg : a - brw < 0
      · have ha' : a = 0 ∧ brw = 1 := by omega
        have hrec : valLE ([] : List Int) + 1 ≤ valLE as := by
          simp only [valLE]
          omega
        obtain ⟨hres1, hres2, hres3⟩ := ih has
          (fun d hd => absurd hd (List.not_mem_nil d))
          (by norm_num) (by norm_num) (by simp) hrec
        simp only [subLE, if_pos hneg]
        refine ⟨?_, by simpa using hres2, ?_⟩
        · rw [digitsOK_cons]
          exact ⟨by omega, hres1⟩
        · simp only [valLE, hres3]
          omega
      · have hrec : valLE ([] : List Int) + 0 ≤ valLE as := by
          simp only [valLE]
          omega
        obtain ⟨hres1, hres2, hres3⟩ := ih has
          (fun d hd => absurd hd (List.not_mem_nil d))
          (by norm_num) (by norm_num) (by simp) hrec
        simp only [subLE, if_neg hneg]
        refine ⟨?_, by simpa using hres2, ?_⟩
        · rw [digitsOK_cons]
          exact ⟨by omega, hres1⟩
        · simp only [valLE, hres3]
          omega
    | cons b bs =>
      have hb0' := hb b (by simp)
      have hbs : digitsOK bs := fun d hd => hb d (by simp [hd])
      have hY0 : 0 ≤ valLE bs := valLE_nonneg (fun d hd => (hbs d hd).1)
      have hlen2 : bs.length ≤ as.length := by simpa using hlen
      simp only [valLE] at hval
      by_cases hneg : a - b - brw < 0
      · have hrec : valLE bs + 1 ≤ valLE as := by omega
        obtain ⟨hres1, hres2, hres3⟩ := ih has hbs (by norm_num) (by norm_num)
          hlen2 hrec
        simp only [subLE, if_pos hneg]
        refine ⟨?_, by simpa using hres2, ?_⟩
        · rw [digitsOK_cons]
          exact ⟨by omega, hres1⟩
        · simp only [valLE, hres3]
          omega
      · have hrec : valLE bs + 0 ≤ valLE as := by omega
        obtain ⟨hres1, hres2, hres3⟩ := ih has hbs (by norm_num) (by norm_num)
          hlen2 hrec
        simp only [subLE, if_neg hneg]
        refine ⟨?_, by simpa using hres2, ?_⟩
        · rw [digitsOK_cons]
          exact ⟨by omega, hres1⟩
        · simp only [valLE, hres3]
          omega

theorem rlz_val (l : List Int) :
    valBE (removeLeadingZeroes l) = valBE l := by
  induction l with
  | nil => rfl
  | cons d rest ih =>
    cases rest with
    | nil => rfl
    | cons e rest2 =>
      by_cases hd : d = 0
      · subst hd
        have hstep : removeLeadingZeroes (0 :: e :: rest2)
            = removeLeadingZeroes (e :: rest2) := by
          simp [removeLeadingZeroes]
        rw [hstep, ih, valBE_cons 0 (e :: rest2), zero_mul, zero_add]
      · simp [removeLeadingZeroes, hd]

theorem rlz_norm {l : List Int} (hok : digitsOK l) (hne : l ≠ []) :
    normDigits (removeLeadingZeroes l) := by
  induction l with
  | nil => exact absurd rfl hne
  | cons d rest ih =>
    have hd0 := hok d (by simp)
    have hrest : digitsOK rest := fun k hk => hok k (by simp [hk])
    cases rest with
    | nil =>
      simp only [removeLeadingZeroes]
      exact normDigits_cons.mpr ⟨hok, fun _ => rfl⟩
    | cons e rest2 =>
      by_cases hd : d = 0
      · subst hd
        have hstep : removeLeadingZeroes (0 :: e :: rest2)
            = removeLeadingZeroes (e :: rest2) := by
          simp [removeLeadingZeroes]
        rw [hstep]
        exact ih hrest (by simp)
      · simp only [removeLeadingZeroes, if_neg hd]
        exact normDigits_cons.mpr ⟨hok, fun h => absurd h hd⟩

theorem len_le_of_val_le {l m : List Int} (hl : normDigits l)
    (hm : normDigits m) (h : valBE m ≤ valBE l) : m.length ≤ l.length := by
  by_contra hlen
  push_neg at hlen
  have := valBE_lt_of_len hl hm hlen
  omega

theorem subtractAbs_spec {a b : InfiniteInt} (ha : normDigits a.digits)
    (hb : normDigits b.digits) (hle : valBE b.digits ≤ valBE a.digits) :
    normDigits (subtractAbs a b).digits ∧
      valBE (subtractAbs a b).digits = valBE a.digits - valBE b.digits ∧
      (subtractAbs a b).isNegative = false := by
  have hoa := normDigits_digitsOK ha
  have hob := normDigits_digitsOK hb
  have hlen : b.digits.length ≤ a.digits.length := len_le_of_val_le ha hb hle
  have hsub := @subLE_spec a.digits.reverse b.digits.reverse 0
    (digitsOK_reverse.mpr hoa) (digitsOK_reverse.mpr hob)
    le_rfl (by norm_num) (by simpa using hlen) (by simpa [valBE] using hle)
  obtain ⟨hok, hlen2, hval⟩ := hsub
  have hrevok : digitsOK (subLE a.digits.reverse b.digits.reverse 0).reverse :=
    digitsOK_reverse.mpr hok
  have hrevne : (subLE a.digits.reverse b.digits.reverse 0).reverse ≠ [] := by
    intro h0
    have : (subLE a.digits.reverse b.digits.reverse 0).reverse.length = 0 := by
      rw [h0]; rfl
    rw [List.length_reverse, hlen2, List.length_reverse] at this
    have := List.length_pos_of_ne_nil (normDigits_ne_nil ha)
    omega
  refine ⟨rlz_norm hrevok hrevne, ?_, rfl⟩
  show valBE (removeLeadingZeroes (subLE a.digits.reverse b.digits.reverse 0).reverse)
      = _
  rw [rlz_val]
  show valLE ((subLE a.digits.reverse b.digits.reverse 0).reverse).reverse = _
  rw [List.reverse_reverse, hval]
  simp [valBE]

end InfiniteInt

namespace InfiniteInt

theorem ofInt_zero : ofInt 0 = { digits := [0], isNegative := false } := by
  decide

theorem Inv_of_norm_false {d : List Int} (h : normDigits d) :
    Inv { digits := d, isNegative := false } :=
  Inv_iff.mpr ⟨h, fun _ => rfl⟩

theorem Inv_of_norm_true {d : List Int} (h : normDigits d) (hne : d ≠ [0]) :
    Inv { digits := d, isNegative := true } :=
  Inv_iff.mpr ⟨h, fun h0 => absurd h0 hne⟩

theorem Inv.neg_iff_value_neg {x : InfiniteInt} (h : Inv x) :
    x.isNegative = true ↔ value x < 0 := by
  cases x with | mk xd xn =>
  cases xn
  · have hm : 0 ≤ valBE xd := h.mag_nonneg
    rw [value_mk_false]
    refine iff_of_false (by simp) (by omega)
  · have h1 : 1 ≤ valBE xd := h.neg_mag_pos rfl
    rw [value_mk_true]
    exact iff_of_true rfl (by omega)

theorem value_of_sign_false {x : InfiniteInt} (h : x.isNegative = false) :
    value x = valBE x.digits := by
  simp [value, h]

theorem Inv_of_norm_sign_false {x : InfiniteInt} (hn : normDigits x.digits)
    (hs : x.isNegative = false) : Inv x :=
  Inv_iff.mpr ⟨hn, fun _ => hs⟩

theorem subtract_spec {lhs rhs : InfiniteInt} (hl : normDigits lhs.digits)
    (hr : normDigits rhs.digits) :
    Inv (subtract lhs rhs) ∧
      value (subtract lhs rhs) =
        (if lhs.isNegative = true then valBE rhs.digits - valBE lhs.digits
         else valBE lhs.digits - valBE rhs.digits) := by
  have hIl : Inv { digits := lhs.digits, isNegative := false } :=
    Inv_of_norm_false hl
  have hIr : Inv { digits := rhs.digits, isNegative := false } :=
    Inv_of_norm_false hr
  have hltiff := lt_iff_value hIl hIr
  rw [value_mk_false, value_mk_false] at hltiff
  by_cases hlt : lt { digits := lhs.digits, isNegative := false }
      { digits := rhs.digits, isNegative := false } = true
  · -- rhs has the strictly larger magnitude
    have hmlt : valBE lhs.digits < valBE rhs.digits := hltiff.mp hlt
    obtain ⟨hnorm, hval, hsgn⟩ := subtractAbs_spec
      (a := { digits := rhs.digits, isNegative := false })
      (b := { digits := lhs.digits, isNegative := false }) hr hl (le_of_lt hmlt)
    replace hval : valBE (subtractAbs { digits := rhs.digits, isNegative := false }
        { digits := lhs.digits, isNegative := false }).digits
        = valBE rhs.digits - valBE lhs.digits := hval
    have hzne : (subtractAbs { digits := rhs.digits, isNegative := false }
        { digits := lhs.digits, isNegative := false }).digits ≠ [0] := by
      intro h0
      rw [(valBE_zero_iff hnorm).mpr h0] at hval
      omega
    have hbeq : beq (subtractAbs { digits := rhs.digits, isNegative := false }
        { digits := lhs.digits, isNegative := false }) (ofInt 0) = false := by
      rw [← Bool.not_eq_true]
      intro hb
      rw [beq_iff, ofInt_zero] at hb
      exact hzne (congrArg digits hb)
    simp only [subtract, hlt, Bool.not_true, if_false, Bool.false_eq_true,
      Bool.and_false, Bool.false_or, Bool.not_false, Bool.and_true, hbeq,
      if_true]
    cases hsign : lhs.isNegative
    · -- positive lhs, larger rhs: the result is negated
      simp only [hsign, Bool.not_false, if_true, Bool.false_eq_true, if_false]
      refine ⟨Inv_of_norm_true hnorm hzne, ?_⟩
      rw [value_mk_true, hval]
      omega
    · -- negative lhs, larger rhs: the result keeps the default positive sign
      simp only [hsign, Bool.not_true, Bool.false_eq_true, if_false, if_true]
      refine ⟨Inv_of_norm_sign_false hnorm hsgn, ?_⟩
      rw [value_of_sign_false hsgn, hval]
  · -- lhs has the larger (or equal) magnitude
    have hmge : valBE rhs.digits ≤ valBE lhs.digits := by
      have := hltiff.not.mp hlt
      omega
    obtain ⟨hnorm, hval, hsgn⟩ := subtractAbs_spec
      (a := { digits := lhs.digits, isNegative := false })
      (b := { digits := rhs.digits, isNegative := false }) hl hr hmge
    replace hval : valBE (subtractAbs { digits := lhs.digits, isNegative := false }
        { digits := rhs.digits, isNegative := false }).digits
        = valBE lhs.digits - valBE rhs.digits := hval
    have hltf : lt { digits := lhs.digits, isNegative := false }
        { digits := rhs.digits, isNegative := false } = false := by
      revert hlt
      cases lt { digits := lhs.digits, isNegative := false }
          { digits := rhs.digits, isNegative := false } <;> simp
    by_cases heq : valBE lhs.digits = valBE rhs.digits
    · -- zero result: the sign stays positive
      have hz : (subtractAbs { digits := lhs.digits, isNegative := false }
          { digits := rhs.digits, isNegative := false }).digits = [0] :=
        (valBE_zero_iff hnorm).mp (by omega)
      have hbeq : beq (subtractAbs { digits := lhs.digits, isNegative := false }
          { digits := rhs.digits, isNegative := false }) (ofInt 0) = true := by
        rw [beq_iff, ofInt_zero]
        cases hS : subtractAbs { digits := lhs.digits, isNegative := false }
            { digits := rhs.digits, isNegative := false } with
        | mk Sd Sn =>
          have h1 : Sd = [0] := by
            have := congrArg digits hS
            simp only at this
            rw [← this]
            exact hz
          have h2 : Sn = false := by
            have := congrArg isNegative hS
            simp only at this
            rw [← this]
            exact hsgn
          rw [h1, h2]
      simp only [subtract, hltf, Bool.not_false, if_true, hbeq, Bool.not_true,
        Bool.false_eq_true, if_false]
      refine ⟨Inv_of_norm_sign_false hnorm hsgn, ?_⟩
      rw [value_of_sign_false hsgn, hval]
      split <;> omega
    · -- strictly larger lhs magnitude: the sign follows lhs's sign
      have hzne : (subtractAbs { digits := lhs.digits, isNegative := false }
          { digits := rhs.digits, isNegative := false }).digits ≠ [0] := by
        intro h0
        rw [(valBE_zero_iff hnorm).mpr h0] at hval
        omega
      have hbeq : beq (subtractAbs { digits := lhs.digits, isNegative := false }
          { digits := rhs.digits, isNegative := false }) (ofInt 0) = false := by
        rw [← Bool.not_eq_true]
        intro hb
        rw [beq_iff, ofInt_zero] at hb
        exact hzne (congrArg digits hb)
      simp only [subtract, hltf, Bool.not_false, if_true, hbeq, Bool.and_true,
        Bool.true_eq_false, Bool.and_false, Bool.or_false]
      cases hsign : lhs.isNegative
      · simp only [hsign, Bool.not_false, Bool.not_true, Bool.true_and,
          Bool.false_and, Bool.false_or, Bool.or_false, Bool.and_true,
          Bool.and_false, Bool.false_eq_true, if_false, if_true]
        refine ⟨Inv_of_norm_sign_false hnorm hsgn, ?_⟩
        rw [value_of_sign_false hsgn, hval]
      · simp only [hsign, Bool.not_false, Bool.not_true, Bool.true_and,
          Bool.false_and, Bool.false_or, Bool.or_false, Bool.and_true,
          Bool.and_false, if_false, if_true]
        refine ⟨Inv_of_norm_true hnorm hzne, ?_⟩
        rw [value_mk_true, hval]
        omega

end InfiniteInt

namespace InfiniteInt

theorem value_of_sign_true {x : InfiniteInt} (h : x.isNegative = true) :
    value x = -valBE x.digits := by
  simp [value, h]

theorem opAdd_spec {a b : InfiniteInt} (ha : Inv a) (hb : Inv b) :
    Inv (opAdd a b) ∧ value (opAdd a b) = value a + value b := by
  have hma : 0 ≤ valBE a.digits := ha.mag_nonneg
  have hmb : 0 ≤ valBE b.digits := hb.mag_nonneg
  by_cases hs : a.isNegative = b.isNegative
  · obtain ⟨hval, hok, _⟩ := add_spec (normDigits_digitsOK ha.norm)
      (normDigits_digitsOK hb.norm)
    have hnorm := add_norm ha.norm hb.norm
    simp only [opAdd, if_pos hs]
    constructor
    · refine Inv_iff.mpr ⟨hnorm, fun h0 => ?_⟩
      show a.isNegative = false
      have h0' : (add a b).digits = [0] := h0
      have hval0 : (0 : Int) = valBE a.digits + valBE b.digits := by
        rw [← hval, h0']
        rfl
      exact ha.zero_sign ((valBE_zero_iff ha.norm).mp (by omega))
    · cases hA : a.isNegative
      · have hB : b.isNegative = false := by rw [← hs, hA]
        rw [value_mk_false, hval, value_of_sign_false hA, value_of_sign_false hB]
      · have hB : b.isNegative = true := by rw [← hs, hA]
        rw [value_mk_true, hval, value_of_sign_true hA, value_of_sign_true hB]
        ring
  · obtain ⟨hInv, hval⟩ := subtract_spec ha.norm hb.norm
    simp only [opAdd, if_neg hs]
    refine ⟨hInv, ?_⟩
    rw [hval]
    cases hA : a.isNegative
    · have hB : b.isNegative = true := by
        cases hBv : b.isNegative
        · exact absurd (hA.trans hBv.symm) hs
        · rfl
      rw [value_of_sign_false hA, value_of_sign_true hB]
      simp only [hA, Bool.false_eq_true, if_false]
      ring
    · have hB : b.isNegative = false := by
        cases hBv : b.isNegative
        · rfl
        · exact absurd (hA.trans hBv.symm) hs
      rw [value_of_sign_true hA, value_of_sign_false hB]
      simp only [hA, if_true]
      ring

theorem opSub_spec {a b : InfiniteInt} (ha : Inv a) (hb : Inv b) :
    Inv (opSub a b) ∧ value (opSub a b) = value a - value b := by
  have hma : 0 ≤ valBE a.digits := ha.mag_nonneg
  have hmb : 0 ≤ valBE b.digits := hb.mag_nonneg
  by_cases hs : a.isNegative ≠ b.isNegative
  · obtain ⟨hval, hok, _⟩ := add_spec (normDigits_digitsOK ha.norm)
      (normDigits_digitsOK hb.norm)
    have hnorm := add_norm ha.norm hb.norm
    simp only [opSub, if_pos hs]
    constructor
    · refine Inv_iff.mpr ⟨hnorm, fun h0 => ?_⟩
      show a.isNegative = false
      have h0' : (add a b).digits = [0] := h0
      have hval0 : (0 : Int) = valBE a.digits + valBE b.digits := by
        rw [← hval, h0']
        rfl
      exact ha.zero_sign ((valBE_zero_iff ha.norm).mp (by omega))
    · cases hA : a.isNegative
      · have hB : b.isNegative = true := by
          cases hBv : b.isNegative
          · exact absurd (hA.trans hBv.symm) hs
          · rfl
        rw [value_mk_false, hval, value_of_sign_false hA, value_of_sign_true hB]
        ring
      · have hB : b.isNegative = false := by
          cases hBv : b.isNegative
          · rfl
          · exact absurd (hA.trans hBv.symm) hs
        rw [value_mk_true, hval, value_of_sign_true hA, value_of_sign_false hB]
        ring
  · obtain ⟨hInv, hval⟩ := subtract_spec ha.norm hb.norm
    simp only [opSub, if_neg hs]
    refine ⟨hInv, ?_⟩
    rw [hval]
    push_neg at hs
    cases hA : a.isNegative
    · have hB : b.isNegative = false := by rw [← hs, hA]
      rw [value_of_sign_false hA, value_of_sign_false hB]
      simp only [hA, Bool.false_eq_true, if_false]
    · have hB : b.isNegative = true := by rw [← hs, hA]
      rw [value_of_sign_true hA, value_of_sign_true hB]
      simp only [hA, if_true]
      ring

end InfiniteInt

namespace InfiniteInt

/-! ### Correctness of the int constructor -/

theorem digitsOK_append {l m : List Int} (hl : digitsOK l) (hm : digitsOK m) :
    digitsOK (l ++ m) := fun d hd => (List.mem_append.mp hd).elim (hl d) (hm d)

theorem valBE_append (xs ys : List Int) :
    valBE (xs ++ ys) = valBE xs * 10 ^ ys.length + valBE ys := by
  show valLE (xs ++ ys).reverse = _
  rw [List.reverse_append, valLE_append]
  simp only [List.length_reverse]
  show valBE ys + 10 ^ ys.length * valBE xs = _
  ring

theorem digitLoopGo_append (fuel : Nat) : ∀ (n : Nat) (acc : List Int),
    digitLoopGo fuel n acc = digitLoopGo fuel n [] ++ acc := by
  induction fuel with
  | zero => intro n acc; rfl
  | succ fuel ih =>
    intro n acc
    simp only [digitLoopGo]
    by_cases h : n / 10 = 0
    · simp [h]
    · simp only [if_neg h]
      rw [ih (n / 10) (((n % 10 : Nat) : Int) :: acc),
        ih (n / 10) [((n % 10 : Nat) : Int)]]
      simp

theorem digitLoopGo_spec (fuel : Nat) : ∀ n : Nat, n < 10 ^ (fuel + 1) →
    valBE (digitLoopGo fuel n []) = (n : Int) ∧
      digitsOK (digitLoopGo fuel n []) ∧
      (∃ h t, digitLoopGo fuel n [] = h :: t ∧ (1 ≤ n → 1 ≤ h)) ∧
      (n = 0 → digitLoopGo fuel n [] = [0]) := by
  induction fuel with
  | zero =>
    intro n hn
    have hn10 : n < 10 := by simpa using hn
    have hmod : n % 10 = n := Nat.mod_eq_of_lt hn10
    refine ⟨?_, ?_, ?_, ?_⟩
    · show valBE [((n % 10 : Nat) : Int)] = (n : Int)
      rw [hmod]
      show valLE [(n : Int)] = (n : Int)
      simp [valLE]
    · intro d hd
      simp only [digitLoopGo, List.mem_singleton] at hd
      subst hd
      rw [hmod]
      constructor
      · exact Int.natCast_nonneg n
      · exact_mod_cast (by omega : n ≤ 9)
    · exact ⟨((n % 10 : Nat) : Int), [], rfl, fun h1 => by
        rw [hmod]; exact_mod_cast h1⟩
    · intro h0
      subst h0
      rfl
  | succ fuel ih =>
    intro n hn
    by_cases h : n / 10 = 0
    · have hn10 : n < 10 := by omega
      have hmod : n % 10 = n := Nat.mod_eq_of_lt hn10
      simp only [digitLoopGo, if_pos h]
      refine ⟨?_, ?_, ?_, ?_⟩
      · show valBE [((n % 10 : Nat) : Int)] = (n : Int)
        rw [hmod]
        show valLE [(n : Int)] = (n : Int)
        simp [valLE]
      · intro d hd
        simp only [List.mem_singleton] at hd
        subst hd
        rw [hmod]
        constructor
        · exact Int.natCast_nonneg n
        · exact_mod_cast (by omega : n ≤ 9)
      · exact ⟨((n % 10 : Nat) : Int), [], rfl, fun h1 => by
          rw [hmod]; exact_mod_cast h1⟩
      · intro h0
        subst h0
        rfl
    · have hrec : n / 10 < 10 ^ (fuel + 1) := by
        rw [Nat.div_lt_iff_lt_mul (by norm_num)]
        calc n < 10 ^ (fuel + 1 + 1) := hn
        _ = 10 ^ (fuel + 1) * 10 := by ring
      obtain ⟨ihval, ihok, ⟨hh, ht, hcons, hhead⟩, _⟩ := ih (n / 10) hrec
      simp only [digitLoopGo, if_neg h]
      rw [digitLoopGo_append]
      refine ⟨?_, ?_, ?_, ?_⟩
      · rw [valBE_append, ihval]
        show ((n : Int) / 10) * 10 ^ (1 : Nat) + valLE [((n % 10 : Nat) : Int)] = n
        · simp only [valLE, pow_one]
          have h1 : ((n % 10 : Nat) : Int) = (n : Int) % 10 := by push_cast; ring
          have h2 : ((n / 10 : Nat) : Int) = (n : Int) / 10 := by push_cast; ring
          rw [h1]
          omega
      · refine digitsOK_append ihok ?_
        intro d hd
        simp only [List.mem_singleton] at hd
        subst hd
        have := Nat.mod_lt n (y := 10) (by norm_num)
        constructor
        · exact Int.natCast_nonneg _
        · exact_mod_cast (by omega : n % 10 ≤ 9)
      · refine ⟨hh, ht ++ [((n % 10 : Nat) : Int)], ?_, fun _ => ?_⟩
        · rw [hcons]
          rfl
        · exact hhead (by omega)
      · intro h0
        omega

theorem digitLoopAux_spec (n : Nat) :
    valBE (digitLoopAux n []) = (n : Int) ∧
      digitsOK (digitLoopAux n []) ∧
      (∃ h t, digitLoopAux n [] = h :: t ∧ (1 ≤ n → 1 ≤ h)) ∧
      (n = 0 → digitLoopAux n [] = [0]) := by
  refine digitLoopGo_spec n n ?_
  calc n < 10 ^ n := Nat.lt_pow_self (by norm_num) n
  _ ≤ 10 ^ (n + 1) := Nat.pow_le_pow_right (by norm_num) (by omega)

theorem digitLoopAux_acc (n : Nat) (acc : List Int) :
    digitLoopAux n acc = digitLoopAux n [] ++ acc :=
  digitLoopGo_append n n acc

end InfiniteInt

namespace InfiniteInt

theorem normDigits_zero : normDigits [0] := by
  refine normDigits_cons.mpr ⟨?_, fun _ => rfl⟩
  intro d hd
  simp only [List.mem_singleton] at hd
  subst hd
  exact ⟨le_refl 0, by norm_num⟩

theorem ofInt_spec (num : Int) : Inv (ofInt num) ∧ value (ofInt num) = num := by
  by_cases hmin : num = intMinVal
  · subst hmin
    exact ⟨by decide, by decide⟩
  · simp only [ofInt, if_neg hmin]
    by_cases hneg : num < 0
    · have hd : decide (num < 0) = true := decide_eq_true hneg
      simp only [if_pos hneg, hd]
      have hk : (((-num).toNat : Nat) : Int) = -num :=
        Int.toNat_of_nonneg (by omega)
      obtain ⟨hval, hok, ⟨h, t, hcons, hhead⟩, _⟩ :=
        digitLoopAux_spec (-num).toNat
      have hk1 : 1 ≤ (-num).toNat := by omega
      have hh1 : 1 ≤ h := hhead hk1
      constructor
      · refine Inv_iff.mpr ⟨?_, fun h0 => ?_⟩
        · show normDigits (digitLoopAux (-num).toNat [])
          rw [hcons]
          refine normDigits_cons.mpr ⟨hcons ▸ hok, fun hh0 => ?_⟩
          omega
        · exfalso
          have h0' : digitLoopAux (-num).toNat [] = [0] := h0
          rw [hcons] at h0'
          have : h = 0 := (List.cons.inj h0').1
          omega
      · rw [value_mk_true, hval, hk]
        ring
    · have hd : decide (num < 0) = false := decide_eq_false hneg
      simp only [if_neg hneg, hd]
      have hk : ((num.toNat : Nat) : Int) = num := Int.toNat_of_nonneg (by omega)
      obtain ⟨hval, hok, ⟨h, t, hcons, hhead⟩, hzero⟩ :=
        digitLoopAux_spec num.toNat
      constructor
      · refine Inv_iff.mpr ⟨?_, fun _ => rfl⟩
        show normDigits (digitLoopAux num.toNat [])
        by_cases hz : num.toNat = 0
        · rw [hzero hz]
          exact normDigits_zero
        · rw [hcons]
          refine normDigits_cons.mpr ⟨hcons ▸ hok, fun hh0 => ?_⟩
          have := hhead (by omega)
          omega
      · rw [value_mk_false, hval, hk]

theorem Inv_ofInt (num : Int) : Inv (ofInt num) := (ofInt_spec num).1

theorem value_ofInt (num : Int) : value (ofInt num) = num := (ofInt_spec num).2

end InfiniteInt

namespace InfiniteInt

/-! ### Correctness of multiplication -/

theorem pow_ten_lt_imp {x y : Nat} (h : (10 : Int) ^ x < 10 ^ y) : x < y := by
  by_contra hxy
  push_neg at hxy
  have := pow_ten_le hxy
  omega

theorem valBE_replicate (k : Nat) : valBE (List.replicate k 0) = 0 := by
  induction k with
  | zero => rfl
  | succ k ih =>
    rw [List.replicate_succ, valBE_cons, ih]
    ring

theorem norm_head_pos {l : List Int} (hn : normDigits l) (hne : l ≠ [0]) :
    ∀ h, l.head? = some h → 1 ≤ h := by
  intro h hh
  cases l with
  | nil => simp at hh
  | cons d rest =>
    obtain ⟨hok, hz⟩ := normDigits_cons.mp hn
    simp only [List.head?_cons, Option.some.injEq] at hh
    rw [← hh]
    rcases hok d (by simp) with ⟨h0, _⟩
    rcases eq_or_lt_of_le h0 with he | he
    · exfalso
      exact hne (by rw [hz he.symm, ← he])
    · omega

theorem mulDigitLE_val {r : Int} (hr : 0 ≤ r) {ls : List Int} : ∀ {c : Int},
    (∀ d ∈ ls, 0 ≤ d) → 0 ≤ c →
    valLE (mulDigitLE r ls c) = r * valLE ls + c := by
  induction ls with
  | nil =>
    intro c _ hc
    by_cases h : 0 < c
    · simp [mulDigitLE, h, valLE]
    · have hc0 : c = 0 := by omega
      simp [mulDigitLE, h, valLE, hc0]
  | cons a as ih =>
    intro c hls hc
    have ha0 : 0 ≤ a := hls a (by simp)
    have has : ∀ d ∈ as, 0 ≤ d := fun d hd => hls d (by simp [hd])
    have hs : (0 : Int) ≤ a * r + c := by
      have := mul_nonneg ha0 hr
      omega
    simp only [mulDigitLE, valLE]
    rw [ih has (Int.tdiv_nonneg hs (by norm_num)), tmod_ten_eq hs,
      tdiv_ten_eq hs]
    have key : (a * r + c) % 10 + 10 * ((a * r + c) / 10) = a * r + c := by
      omega
    linear_combination key

theorem mulDigitLE_digitsOK {r : Int} (hr0 : 0 ≤ r) (hr9 : r ≤ 9)
    {ls : List Int} : ∀ {c : Int},
    digitsOK ls → 0 ≤ c → c ≤ 8 → digitsOK (mulDigitLE r ls c) := by
  induction ls with
  | nil =>
    intro c _ hc0 hc8
    by_cases h : 0 < c
    · simp only [mulDigitLE, if_pos h]
      intro d hd
      simp only [List.mem_singleton] at hd
      subst hd
      omega
    · simp only [mulDigitLE, if_neg h]
      intro d hd
      simp at hd
  | cons a as ih =>
    intro c hls hc0 hc8
    obtain ⟨ha0, ha9⟩ := hls a (by simp)
    have has : digitsOK as := fun d hd => hls d (by simp [hd])
    have hp : a * r ≤ 81 := by nlinarith
    have hs : (0 : Int) ≤ a * r + c := by
      have := mul_nonneg ha0 hr0
      omega
    simp only [mulDigitLE]
    rw [digitsOK_cons]
    refine ⟨?_, ih has (Int.tdiv_nonneg hs (by norm_num)) ?_⟩
    · rw [tmod_ten_eq hs]
      omega
    · rw [tdiv_ten_eq hs]
      omega

theorem mulDigitLE_len {r : Int} {ls : List Int} : ∀ {c : Int},
    (mulDigitLE r ls c).length = ls.length ∨
      (mulDigitLE r ls c).length = ls.length + 1 := by
  induction ls with
  | nil =>
    intro c
    by_cases h : 0 < c
    · right; simp [mulDigitLE, h]
    · left; simp [mulDigitLE, h]
  | cons a as ih =>
    intro c
    simp only [mulDigitLE, List.length_cons]
    rcases ih (c := Int.tdiv (a * r + c) 10) with h | h
    · left; omega
    · right; omega

theorem mulDigitLE_lastPos {r : Int} (hr1 : 1 ≤ r) (hr9 : r ≤ 9)
    {ls : List Int} : ∀ {c : Int},
    digitsOK ls → lastPos ls → ls ≠ [] → 0 ≤ c → c ≤ 8 →
    mulDigitLE r ls c ≠ [] ∧ lastPos (mulDigitLE r ls c) := by
  induction ls with
  | nil => intro c _ _ hne _ _; exact absurd rfl hne
  | cons a as ih =>
    intro c hok hlast hne hc0 hc8
    obtain ⟨ha0, ha9⟩ := hok a (by simp)
    have has : digitsOK as := fun d hd => hok d (by simp [hd])
    have hp : a * r ≤ 81 := by nlinarith
    have hs : (0 : Int) ≤ a * r + c := by
      have := mul_nonneg ha0 (by omega : (0 : Int) ≤ r)
      omega
    have hcd0 : 0 ≤ Int.tdiv (a * r + c) 10 := Int.tdiv_nonneg hs (by norm_num)
    have hcd8 : Int.tdiv (a * r + c) 10 ≤ 8 := by
      rw [tdiv_ten_eq hs]; omega
    simp only [mulDigitLE]
    cases as with
    | nil =>
      -- last digit of ls; a ≥ 1 since lastPos [a]
      have ha1 : 1 ≤ a := hlast a (by simp [List.getLast?])
      have har : 1 ≤ a * r := by nlinarith
      by_cases hcz : 0 < Int.tdiv (a * r + c) 10
      · refine ⟨by simp, ?_⟩
        have hrec : mulDigitLE r [] (Int.tdiv (a * r + c) 10)
            = [Int.tdiv (a * r + c) 10] := by
          simp [mulDigitLE, hcz]
        rw [hrec]
        intro d hd
        simp only [List.getLast?_cons_cons, List.getLast?_singleton,
          Option.some.injEq] at hd
        omega
      · have hcz0 : Int.tdiv (a * r + c) 10 = 0 := by omega
        have hsle : a * r + c ≤ 9 := by
          rw [tdiv_ten_eq hs] at hcz0
          omega
        have hrec : mulDigitLE r [] (Int.tdiv (a * r + c) 10) = [] := by
          simp [mulDigitLE, hcz0]
        rw [hrec]
        refine ⟨by simp, ?_⟩
        intro d hd
        simp only [List.getLast?_singleton, Option.some.injEq] at hd
        rw [tmod_ten_eq hs] at hd
        omega
    | cons e es =>
      have hlast2 : lastPos (e :: es) := (lastPos_cons (by simp)).mp hlast
      obtain ⟨hrne, hrlast⟩ := ih has hlast2 (by simp) hcd0 hcd8
      refine ⟨by simp, ?_⟩
      rw [lastPos_cons hrne]
      exact hrlast

end InfiniteInt

namespace InfiniteInt

theorem mulLoop_spec {lhsLE : List Int} (hok : digitsOK lhsLE)
    (hlast : lastPos lhsLE) (hne : lhsLE ≠ []) :
    ∀ (rs : List Int) (k : Nat) (acc : InfiniteInt),
    digitsOK rs → lastPos rs →
    digitsOK acc.digits → acc.isNegative = false →
    (acc.digits = [] ∨ acc.digits.length ≤ lhsLE.length + k) →
    (mulLoop lhsLE rs k acc).isNegative = false ∧
      digitsOK (mulLoop lhsLE rs k acc).digits ∧
      valBE (mulLoop lhsLE rs k acc).digits
        = valBE acc.digits + valLE lhsLE * valLE rs * 10 ^ k ∧
      (rs ≠ [] → normDigits (mulLoop lhsLE rs k acc).digits) := by
  intro rs
  induction rs with
  | nil =>
    intro k acc _ _ hacc hsgn _
    simp only [mulLoop, valLE]
    refine ⟨hsgn, hacc, by ring, fun h => absurd rfl h⟩
  | cons r rs2 ih =>
    intro k acc hrs hrlast hacc hsgn hbound
    obtain ⟨hr0, hr9⟩ := hrs r (by simp)
    have hrs2 : digitsOK rs2 := fun d hd => hrs d (by simp [hd])
    have hL1 : 1 ≤ lhsLE.length := List.length_pos_of_ne_nil hne
    have hmd_ok : digitsOK (mulDigitLE r lhsLE 0) :=
      mulDigitLE_digitsOK hr0 hr9 hok (le_refl 0) (by norm_num)
    have hmd_val : valLE (mulDigitLE r lhsLE 0) = r * valLE lhsLE := by
      rw [mulDigitLE_val hr0 (fun d hd => (hok d hd).1) (le_refl 0)]
      ring
    have hmd_len : lhsLE.length ≤ (mulDigitLE r lhsLE 0).length := by
      rcases @mulDigitLE_len r lhsLE 0 with h | h <;> omega
    have hpr_ok : digitsOK ((mulDigitLE r lhsLE 0).reverse ++ List.replicate k 0) := by
      refine digitsOK_append (digitsOK_reverse.mpr hmd_ok) ?_
      intro d hd
      rw [List.eq_of_mem_replicate hd]
      exact ⟨le_refl 0, by norm_num⟩
    have hpr_val : valBE ((mulDigitLE r lhsLE 0).reverse ++ List.replicate k 0)
        = r * valLE lhsLE * 10 ^ k := by
      rw [valBE_append, valBE_replicate, List.length_replicate]
      show valLE ((mulDigitLE r lhsLE 0).reverse).reverse * 10 ^ k + 0 = _
      rw [List.reverse_reverse, hmd_val]
      ring
    have hpr_lb : lhsLE.length + k
        ≤ ((mulDigitLE r lhsLE 0).reverse ++ List.replicate k 0).length := by
      rw [List.length_append, List.length_reverse, List.length_replicate]
      omega
    have hpr_ub : ((mulDigitLE r lhsLE 0).reverse ++ List.replicate k 0).length
        ≤ lhsLE.length + 1 + k := by
      rw [List.length_append, List.length_reverse, List.length_replicate]
      rcases @mulDigitLE_len r lhsLE 0 with h | h <;> omega
    obtain ⟨hav, hao, has'⟩ := add_spec (a := acc)
      (b := { digits := (mulDigitLE r lhsLE 0).reverse ++ List.replicate k 0
              isNegative := false }) hacc hpr_ok
    replace hav : valBE (add acc
        { digits := (mulDigitLE r lhsLE 0).reverse ++ List.replicate k 0
          isNegative := false }).digits
        = valBE acc.digits + r * valLE lhsLE * 10 ^ k := by
      rw [hav]
      show _ + valBE ((mulDigitLE r lhsLE 0).reverse ++ List.replicate k 0) = _
      rw [hpr_val]
    have hM : valLE lhsLE < 10 ^ lhsLE.length := valLE_lt hok
    have hM0 : 0 ≤ valLE lhsLE := valLE_nonneg (fun d hd => (hok d hd).1)
    have hacc0 : 0 ≤ valBE acc.digits :=
      valBE_nonneg (fun d hd => (hacc d hd).1)
    have haccU : valBE acc.digits < 10 ^ (lhsLE.length + k) := by
      rcases hbound with h | h
      · rw [h]
        show valLE ([] : List Int).reverse < _
        simp only [List.reverse_nil, valLE]
        exact pow_ten_pos _
      · have h1 : valBE acc.digits < 10 ^ acc.digits.length := valBE_lt hacc
        have h2 : (10 : Int) ^ acc.digits.length ≤ 10 ^ (lhsLE.length + k) :=
          pow_ten_le h
        omega
    have hsum_lt : valBE acc.digits + r * valLE lhsLE * 10 ^ k
        < 10 ^ (lhsLE.length + k + 1) := by
      have h1 : valLE lhsLE * 10 ^ k < 10 ^ (lhsLE.length + k) := by
        have := mul_lt_mul_of_pos_right hM (pow_ten_pos k)
        rwa [← pow_add] at this
      have h3 : 0 ≤ valLE lhsLE * 10 ^ k :=
        mul_nonneg hM0 (le_of_lt (pow_ten_pos k))
      have h2 : r * valLE lhsLE * 10 ^ k ≤ 9 * (valLE lhsLE * 10 ^ k) := by
        calc r * valLE lhsLE * 10 ^ k = r * (valLE lhsLE * 10 ^ k) := by ring
        _ ≤ 9 * (valLE lhsLE * 10 ^ k) := mul_le_mul_of_nonneg_right hr9 h3
      have h4 : (10 : Int) ^ (lhsLE.length + k + 1)
          = 10 * 10 ^ (lhsLE.length + k) := by
        rw [pow_succ]; ring
      omega
    have hlen_eq : (add acc
        { digits := (mulDigitLE r lhsLE 0).reverse ++ List.replicate k 0
          isNegative := false }).digits.length
        = (addLE acc.digits.reverse
            ((mulDigitLE r lhsLE 0).reverse ++ List.replicate k 0).reverse
            0).length := by
      show ((addLE _ _ 0).reverse).length = _
      simp
    have hlen := addLE_len (digitsOK_reverse.mpr hacc)
      (digitsOK_reverse.mpr hpr_ok) (le_refl (0 : Int)) (by norm_num)
    have hand := hav
    have hbound' : (add acc
        { digits := (mulDigitLE r lhsLE 0).reverse ++ List.replicate k 0
          isNegative := false }).digits.length ≤ lhsLE.length + (k + 1) := by
      rcases hlen with h | ⟨h, hlp⟩
      · rw [hlen_eq, h, List.length_reverse, List.length_reverse]
        rcases hbound with hb | hb
        · rw [hb]
          simp only [List.length_nil]
          omega
        · omega
      · -- carry case: bound the length through the value
        have hne2 : (addLE acc.digits.reverse
            ((mulDigitLE r lhsLE 0).reverse ++ List.replicate k 0).reverse
            0).reverse ≠ [] := by
          intro h0
          have hl0 : (addLE acc.digits.reverse
              ((mulDigitLE r lhsLE 0).reverse ++ List.replicate k 0).reverse
              0).length = 0 := by
            rw [← List.length_reverse, h0]
            rfl
          omega
        rcases List.exists_cons_of_ne_nil hne2 with ⟨hh, tt, hht⟩
        have hh1 : 1 ≤ hh := by
          have hhead : (addLE acc.digits.reverse
              ((mulDigitLE r lhsLE 0).reverse ++ List.replicate k 0).reverse
              0).reverse.head? = some hh := by
            rw [hht]; rfl
          rw [List.head?_reverse] at hhead
          exact hlp hh hhead
        have hnormA : normDigits (add acc
            { digits := (mulDigitLE r lhsLE 0).reverse ++ List.replicate k 0
              isNegative := false }).digits := by
          show normDigits (addLE _ _ 0).reverse
          rw [hht]
          refine normDigits_cons.mpr ⟨?_, fun h0 => by omega⟩
          rw [← hht]
          exact digitsOK_reverse.mpr (addLE_digitsOK
            (digitsOK_reverse.mpr hacc) (digitsOK_reverse.mpr hpr_ok)
            (le_refl (0 : Int)) (by norm_num))
        have hne0 : (add acc
            { digits := (mulDigitLE r lhsLE 0).reverse ++ List.replicate k 0
              isNegative := false }).digits ≠ [0] := by
          show (addLE _ _ 0).reverse ≠ [0]
          rw [hht]
          intro hz
          have := (List.cons.inj hz).1
          omega
        have hlow := valBE_lower hnormA hne0
        rw [hav] at hlow
        have hlt := pow_ten_lt_imp (lt_of_le_of_lt hlow hsum_lt)
        have hge1 : 1 ≤ (add acc
            { digits := (mulDigitLE r lhsLE 0).reverse ++ List.replicate k 0
              isNegative := false }).digits.length := by
          rw [hlen_eq, h]
          omega
        omega
    cases rs2 with
    | nil =>
      have hr1 : 1 ≤ r := hrlast r (by simp [List.getLast?])
      simp only [mulLoop]
      refine ⟨has', hao, ?_, fun _ => ?_⟩
      · rw [hav]
        simp only [valLE]
        ring
      · -- the final accumulator is normalized
        obtain ⟨hmdne, hmdlast⟩ :=
          mulDigitLE_lastPos hr1 hr9 hok hlast hne (le_refl 0) (by norm_num)
        rcases List.exists_cons_of_ne_nil
          (show (mulDigitLE r lhsLE 0).reverse ≠ [] by simpa using hmdne)
          with ⟨ph, pt, hpht⟩
        have hph1 : 1 ≤ ph := by
          have hhd : (mulDigitLE r lhsLE 0).reverse.head? = some ph := by
            rw [hpht]; rfl
          rw [List.head?_reverse] at hhd
          exact hmdlast ph hhd
        have hpr_digits : (mulDigitLE r lhsLE 0).reverse ++ List.replicate k 0
            = ph :: (pt ++ List.replicate k 0) := by
          rw [hpht]; rfl
        have hprnorm : normDigits
            ((mulDigitLE r lhsLE 0).reverse ++ List.replicate k 0) := by
          rw [hpr_digits]
          refine normDigits_cons.mpr ⟨?_, fun h0 => by omega⟩
          rw [← hpr_digits]
          exact hpr_ok
        have hprne0 : (mulDigitLE r lhsLE 0).reverse ++ List.replicate k 0
            ≠ [0] := by
          rw [hpr_digits]
          intro hz
          have := (List.cons.inj hz).1
          omega
        have hPlow := valBE_lower hprnorm hprne0
        rcases hlen with h | ⟨h, hlp⟩
        · -- no final carry: the sum is at least the partial product
          refine normDigits_of_lower hao ?_ ?_
          · intro h0
            have hl0 : (add acc
                { digits := (mulDigitLE r lhsLE 0).reverse ++ List.replicate k 0
                  isNegative := false }).digits.length = 0 := by
              rw [h0]; rfl
            rw [hlen_eq, h, List.length_reverse, List.length_reverse] at hl0
            omega
          · have hmax : max acc.digits.reverse.length
                ((mulDigitLE r lhsLE 0).reverse ++ List.replicate k 0).reverse.length
                = ((mulDigitLE r lhsLE 0).reverse ++ List.replicate k 0).length := by
              rw [List.length_reverse, List.length_reverse]
              rcases hbound with hb | hb
              · rw [hb]
                simp
              · exact Nat.max_eq_right (by omega)
            rw [hlen_eq, h, hmax, hav]
            calc 10 ^ (((mulDigitLE r lhsLE 0).reverse ++ List.replicate k 0).length - 1)
                ≤ valBE ((mulDigitLE r lhsLE 0).reverse ++ List.replicate k 0) := hPlow
            _ = r * valLE lhsLE * 10 ^ k := hpr_val
            _ ≤ valBE acc.digits + r * valLE lhsLE * 10 ^ k :=
                le_add_of_nonneg_left hacc0
        · -- final carry: the head digit is the carry, at least 1
          have hne2 : (addLE acc.digits.reverse
              ((mulDigitLE r lhsLE 0).reverse ++ List.replicate k 0).reverse
              0).reverse ≠ [] := by
            intro h0
            have hl0 : (addLE acc.digits.reverse
                ((mulDigitLE r lhsLE 0).reverse ++ List.replicate k 0).reverse
                0).length = 0 := by
              rw [← List.length_reverse, h0]
              rfl
            omega
          rcases List.exists_cons_of_ne_nil hne2 with ⟨hh, tt, hht⟩
          have hh1 : 1 ≤ hh := by
            have hhead : (addLE acc.digits.reverse
                ((mulDigitLE r lhsLE 0).reverse ++ List.replicate k 0).reverse
                0).reverse.head? = some hh := by
              rw [hht]; rfl
            rw [List.head?_reverse] at hhead
            exact hlp hh hhead
          show normDigits (addLE _ _ 0).reverse
          rw [hht]
          refine normDigits_cons.mpr ⟨?_, fun h0 => by omega⟩
          rw [← hht]
          exact digitsOK_reverse.mpr (addLE_digitsOK
            (digitsOK_reverse.mpr hacc) (digitsOK_reverse.mpr hpr_ok)
            (le_refl (0 : Int)) (by norm_num))
    | cons r2 rs3 =>
      have hrlast3 : lastPos (r2 :: rs3) := (lastPos_cons (by simp)).mp hrlast
      rw [show mulLoop lhsLE (r :: r2 :: rs3) k acc
          = mulLoop lhsLE (r2 :: rs3) (k + 1)
              (add acc
                { digits := (mulDigitLE r lhsLE 0).reverse ++ List.replicate k 0
                  isNegative := false }) from rfl]
      obtain ⟨c1, c2, c3, c4⟩ := ih (k + 1)
        (add acc { digits := (mulDigitLE r lhsLE 0).reverse ++ List.replicate k 0
                   isNegative := false })
        hrs2 hrlast3 hao has' (Or.inr hbound')
      refine ⟨c1, c2, ?_, fun _ => c4 (by simp)⟩
      rw [c3, hav]
      simp only [valLE]
      ring

end InfiniteInt

namespace InfiniteInt

theorem beq_zero_of_digits {x : InfiniteInt} (hx : Inv x)
    (h0 : x.digits = [0]) : beq x (ofInt 0) = true := by
  rw [beq_iff, ofInt_zero]
  have hs := hx.zero_sign h0
  calc x = { digits := x.digits, isNegative := x.isNegative } := rfl
  _ = { digits := [0], isNegative := false } := by rw [h0, hs]

theorem opMul_spec {a b : InfiniteInt} (ha : Inv a) (hb : Inv b) :
    Inv (opMul a b) ∧ value (opMul a b) = value a * value b := by
  by_cases hza : beq a (ofInt 0) = true
  · have haz : a = ofInt 0 := beq_iff.mp hza
    simp only [opMul, hza, Bool.true_or, if_true]
    refine ⟨Inv_ofInt 0, ?_⟩
    rw [value_ofInt, haz, value_ofInt]
    ring
  · have hza' : beq a (ofInt 0) = false := by
      revert hza; cases beq a (ofInt 0) <;> simp
    by_cases hzb : beq b (ofInt 0) = true
    · have hbz : b = ofInt 0 := beq_iff.mp hzb
      simp only [opMul, hza', hzb, Bool.or_true, if_true]
      refine ⟨Inv_ofInt 0, ?_⟩
      rw [value_ofInt, hbz, value_ofInt]
      ring
    · have hzb' : beq b (ofInt 0) = false := by
        revert hzb; cases beq b (ofInt 0) <;> simp
      have hane : a.digits ≠ [0] := fun h0 => by
        rw [beq_zero_of_digits ha h0] at hza'
        exact Bool.noConfusion hza'
      have hbne : b.digits ≠ [0] := fun h0 => by
        rw [beq_zero_of_digits hb h0] at hzb'
        exact Bool.noConfusion hzb'
      have hma1 : 1 ≤ valBE a.digits := valBE_pos ha.norm hane
      have hmb1 : 1 ≤ valBE b.digits := valBE_pos hb.norm hbne
      have hlastA : lastPos a.digits.reverse := by
        intro d hd
        rw [List.getLast?_reverse] at hd
        exact norm_head_pos ha.norm hane d hd
      have hlastB : lastPos b.digits.reverse := by
        intro d hd
        rw [List.getLast?_reverse] at hd
        exact norm_head_pos hb.norm hbne d hd
      have hrevneA : a.digits.reverse ≠ [] := by
        simpa using normDigits_ne_nil ha.norm
      have hrevneB : b.digits.reverse ≠ [] := by
        simpa using normDigits_ne_nil hb.norm
      obtain ⟨m1, m2, m3, m4⟩ := mulLoop_spec
        (digitsOK_reverse.mpr (normDigits_digitsOK ha.norm)) hlastA hrevneA
        b.digits.reverse 0 { digits := [], isNegative := false }
        (digitsOK_reverse.mpr (normDigits_digitsOK hb.norm)) hlastB
        (fun d hd => absurd hd (List.not_mem_nil d)) rfl (Or.inl rfl)
      set M := mulLoop a.digits.reverse b.digits.reverse 0
        { digits := [], isNegative := false } with hM
      replace m3 : valBE M.digits = valBE a.digits * valBE b.digits := by
        rw [m3]
        show valBE ([] : List Int)
            + valBE a.digits * valBE b.digits * 10 ^ (0 : Nat) = _
        show (0 : Int) + valBE a.digits * valBE b.digits * 10 ^ (0 : Nat) = _
        ring
      have hmnorm : normDigits M.digits := m4 hrevneB
      have hprod1 : 1 ≤ valBE a.digits * valBE b.digits := by
        nlinarith
      have hmne0 : M.digits ≠ [0] := by
        intro h0
        rw [(valBE_zero_iff hmnorm).mpr h0] at m3
        omega
      simp only [opMul, hza', hzb', Bool.or_false, Bool.false_eq_true, if_false]
      constructor
      · refine Inv_iff.mpr ⟨?_, fun h0 => ?_⟩
        · show normDigits M.digits
          exact hmnorm
        · exact absurd h0 hmne0
      · cases hA : a.isNegative <;> cases hB : b.isNegative
        · show value { digits := M.digits, isNegative := false } = _
          rw [value_mk_false, m3, value_of_sign_false hA, value_of_sign_false hB]
        · show value { digits := M.digits, isNegative := true } = _
          rw [value_mk_true, m3, value_of_sign_false hA, value_of_sign_true hB]
          ring
        · show value { digits := M.digits, isNegative := true } = _
          rw [value_mk_true, m3, value_of_sign_true hA, value_of_sign_false hB]
          ring
        · show value { digits := M.digits, isNegative := false } = _
          rw [value_mk_false, m3, value_of_sign_true hA, value_of_sign_true hB]
          ring

end InfiniteInt

namespace InfiniteInt

/-! ### Correctness of the int conversion -/

theorem valAcc_eq (ds : List Int) : ∀ t : Int,
    valAcc t ds = t * 10 ^ ds.length + valBE ds := by
  induction ds with
  | nil =>
    intro t
    show t = t * 10 ^ (0 : Nat) + valLE ([] : List Int).reverse
    simp [valLE]
  | cons d ds ih =>
    intro t
    show valAcc (10 * t + d) ds = _
    rw [ih (10 * t + d), valBE_cons]
    simp only [List.length_cons]
    ring

theorem wrap32_eq_self {z : Int} (h1 : -2147483648 ≤ z) (h2 : z < 2147483648) :
    wrap32 z = z := by
  show (z + 2147483648) % 4294967296 - 2147483648 = z
  omega

theorem wrap32_top : wrap32 2147483648 = -2147483648 := by decide

theorem foldW_spec {ds : List Int} : ∀ {t : Int}, digitsOK ds →
    0 ≤ t → t < 2147483648 → valAcc t ds ≤ 2147483648 →
    ds.foldl (fun r d => wrap32 (wrap32 (10 * r) + d)) t
      = if valAcc t ds = 2147483648 then -2147483648 else valAcc t ds := by
  induction ds with
  | nil =>
    intro t _ ht0 ht1 hle
    show t = if valAcc t [] = 2147483648 then -2147483648 else valAcc t []
    have hv : valAcc t [] = t := rfl
    rw [hv, if_neg (by omega)]
  | cons d ds ih =>
    intro t hok ht0 ht1 hacc
    obtain ⟨hd0, hd9⟩ := hok d (by simp)
    have hds : digitsOK ds := fun k hk => hok k (by simp [hk])
    have hBE0 : 0 ≤ valBE ds :=
      valBE_nonneg (fun k hk => (hds k hk).1)
    have hpow1 : (1 : Int) ≤ 10 ^ ds.length := pow_ten_pos ds.length
    have haccd : valAcc t (d :: ds) = valAcc (10 * t + d) ds := rfl
    have hmono : 10 * t + d ≤ valAcc (10 * t + d) ds := by
      rw [valAcc_eq]
      have h1 : 10 * t + d ≤ (10 * t + d) * 10 ^ ds.length :=
        le_mul_of_one_le_right (by omega) hpow1
      omega
    rw [haccd] at hacc
    by_cases hsp : 10 * t < 2147483648
    · have hw1 : wrap32 (10 * t) = 10 * t := wrap32_eq_self (by omega) hsp
      by_cases hsp2 : 10 * t + d < 2147483648
      · have hw2 : wrap32 (10 * t + d) = 10 * t + d :=
          wrap32_eq_self (by omega) hsp2
        show ds.foldl _ (wrap32 (wrap32 (10 * t) + d)) = _
        rw [hw1, hw2, haccd]
        exact ih hds (by omega) hsp2 hacc
      · -- the accumulator hits exactly 2^31; no digits may remain
        have ht2 : 10 * t + d = 2147483648 := by omega
        have hlen0 : ds.length = 0 := by
          by_contra hlen
          have hlen1 : 1 ≤ ds.length := by omega
          have hp : (10 : Int) ^ (1 : Nat) ≤ 10 ^ ds.length := pow_ten_le hlen1
          have hv := valAcc_eq ds (10 * t + d)
          rw [ht2] at hv hacc
          have h1 : (2147483648 : Int) * 10 ^ (1 : Nat)
              ≤ 2147483648 * 10 ^ ds.length :=
            mul_le_mul_of_nonneg_left hp (by norm_num)
          have h2 : (2147483648 : Int) * 10 ^ (1 : Nat) = 21474836480 := by
            norm_num
          omega
        have hds0 : ds = [] := List.length_eq_zero.mp hlen0
        subst hds0
        show wrap32 (wrap32 (10 * t) + d)
            = if valAcc t [d] = 2147483648 then -2147483648 else valAcc t [d]
        have hv : valAcc t [d] = 10 * t + d := rfl
        rw [hw1, ht2, wrap32_top, hv, ht2, if_pos rfl]
    · -- 10 * t cannot reach past 2^31 while the total stays in range
      exfalso
      have h10 : ¬(10 : Int) ∣ 2147483648 := by decide
      omega

theorem toInt_ok {x : InfiniteInt} (hx : Inv x)
    (h1 : intMinVal ≤ value x) (h2 : value x ≤ intMaxVal) :
    toInt x = Except.ok (value x) := by
  have hmax := lt_iff_value (Inv_ofInt intMaxVal) hx
  have hmin := lt_iff_value hx (Inv_ofInt intMinVal)
  rw [value_ofInt] at hmax hmin
  have hmaxf : lt (ofInt intMaxVal) x = false := by
    rw [← Bool.not_eq_true, hmax]
    omega
  have hminf : lt x (ofInt intMinVal) = false := by
    rw [← Bool.not_eq_true, hmin]
    omega
  have hmagU : valBE x.digits ≤ 2147483648 := by
    have := hx.mag_nonneg
    cases hs : x.isNegative
    · rw [value_of_sign_false hs] at h2
      show valBE x.digits ≤ 2147483648
      simp only [intMaxVal] at h2
      omega
    · rw [value_of_sign_true hs] at h1
      simp only [intMinVal] at h1
      omega
  have hfold := foldW_spec (t := 0) (normDigits_digitsOK hx.norm)
    (le_refl 0) (by norm_num) (by rw [valAcc_eq]; simpa using hmagU)
  rw [valAcc_eq] at hfold
  simp only [zero_mul, zero_add] at hfold
  simp only [toInt, hmaxf, hminf, Bool.or_self, Bool.false_eq_true, if_false]
  rw [hfold]
  cases hs : x.isNegative
  · -- non-negative: the magnitude is strictly below 2^31
    have hv := value_of_sign_false hs
    have hlt : valBE x.digits < 2147483648 := by
      rw [hv] at h2
      simp only [intMaxVal] at h2
      omega
    simp only [Bool.false_eq_true, if_false]
    rw [if_neg (show ¬valBE x.digits = 2147483648 by omega), hv]
  · have hv := value_of_sign_true hs
    have hmag1 : 1 ≤ valBE x.digits := hx.neg_mag_pos hs
    rw [if_pos (show (true : Bool) = true from rfl)]
    by_cases htop : valBE x.digits = 2147483648
    · rw [if_pos htop]
      have hw2 : wrap32 (-(-2147483648 : Int)) = -2147483648 := by decide
      rw [hw2, hv, htop]
    · rw [if_neg htop]
      rw [wrap32_eq_self (by omega) (by omega), hv]

theorem toInt_error_iff {x : InfiniteInt} (hx : Inv x) :
    toInt x = Except.error ()
      ↔ (value x < intMinVal ∨ intMaxVal < value x) := by
  have hmax := lt_iff_value (Inv_ofInt intMaxVal) hx
  have hmin := lt_iff_value hx (Inv_ofInt intMinVal)
  rw [value_ofInt] at hmax hmin
  by_cases hc : (lt (ofInt intMaxVal) x || lt x (ofInt intMinVal)) = true
  · rw [show toInt x = Except.error () from by simp only [toInt, hc, if_true]]
    simp only [true_iff]
    rcases Bool.or_eq_true_iff.mp hc with h | h
    · right; exact hmax.mp h
    · left; exact hmin.mp h
  · have hcf : (lt (ofInt intMaxVal) x || lt x (ofInt intMinVal)) = false := by
      revert hc
      cases lt (ofInt intMaxVal) x <;> cases lt x (ofInt intMinVal) <;> simp
    constructor
    · intro herr
      exfalso
      simp only [toInt, hcf, Bool.false_eq_true, if_false] at herr
      exact Except.noConfusion herr
    · intro hrange
      exfalso
      rcases Bool.or_eq_false_iff.mp hcf with ⟨h1, h2⟩
      have hn1 : ¬(intMaxVal < value x) := by
        rw [← hmax]
        simp [h1]
      have hn2 : ¬(value x < intMinVal) := by
        rw [← hmin]
        simp [h2]
      rcases hrange with h | h
      · exact hn2 h
      · exact hn1 h

end InfiniteInt

namespace InfiniteInt

/-! ### Correctness of stream extraction -/

theorem dropWhile_head_false {p : Char → Bool} : ∀ {l : List Char} {c : Char}
    {rest : List Char}, l.dropWhile p = c :: rest → p c = false := by
  intro l
  induction l with
  | nil =>
    intro c rest h
    simp [List.dropWhile] at h
  | cons x xs ih =>
    intro c rest h
    rw [List.dropWhile_cons] at h
    by_cases hp : p x = true
    · rw [if_pos hp] at h
      exact ih h
    · rw [if_neg hp] at h
      have hx := (List.cons.inj h).1
      rw [← hx]
      revert hp
      cases p x <;> simp

theorem takeWhile_head {p : Char → Bool} : ∀ {l : List Char} {c : Char}
    {rest : List Char}, l.takeWhile p = c :: rest →
    p c = true ∧ ∃ l2, l = c :: l2 := by
  intro l
  cases l with
  | nil =>
    intro c rest h
    simp [List.takeWhile] at h
  | cons x xs =>
    intro c rest h
    rw [List.takeWhile_cons] at h
    by_cases hp : p x = true
    · rw [if_pos hp] at h
      have hx := (List.cons.inj h).1
      rw [← hx]
      exact ⟨hp, xs, rfl⟩
    · rw [if_neg hp] at h
      exact absurd h (by simp)

theorem char_digit_bounds {c : Char} (h : c.isDigit = true) :
    48 ≤ c.toNat ∧ c.toNat ≤ 57 := by
  simp only [Char.isDigit, Bool.and_eq_true, decide_eq_true_eq] at h
  obtain ⟨h1, h2⟩ := h
  exact ⟨h1, h2⟩

theorem char_ne_zero_toNat {c : Char} (h : (c == '0') = false)
    (hd : c.isDigit = true) : 49 ≤ c.toNat := by
  obtain ⟨h1, _⟩ := char_digit_bounds hd
  by_contra hlt
  push_neg at hlt
  have h48 : c.toNat = 48 := by omega
  have hc : c = '0' := Char.ext (UInt32.ext h48)
  rw [hc] at h
  exact Bool.noConfusion h

theorem parse_core_Inv (s3 : List Char) (neg : Bool)
    (hhead : ∀ c rest, s3 = c :: rest → (c == '0') = false) :
    Inv (if (s3.takeWhile (fun c => c.isDigit)).isEmpty = true
      then { digits := [0], isNegative := false }
      else
        { digits :=
            (s3.takeWhile (fun c => c.isDigit)).map (fun c => (c.toNat : Int) - 48)
          isNegative := neg }) := by
  by_cases hds : (s3.takeWhile (fun c => c.isDigit)).isEmpty = true
  · rw [if_pos hds]
    decide
  · rw [if_neg hds]
    have hne : s3.takeWhile (fun c => c.isDigit) ≠ [] := by
      intro h0
      rw [h0] at hds
      exact hds rfl
    rcases List.exists_cons_of_ne_nil hne with ⟨c, cs, hcons⟩
    obtain ⟨hcdig, l2, hl2⟩ := takeWhile_head hcons
    have hc0 : (c == '0') = false := hhead c l2 hl2
    have hc49 : 49 ≤ c.toNat := char_ne_zero_toNat hc0 hcdig
    have hdigOK : digitsOK ((s3.takeWhile (fun c => c.isDigit)).map
        (fun c => (c.toNat : Int) - 48)) := by
      intro d hd
      rw [List.mem_map] at hd
      obtain ⟨x, hx, hdx⟩ := hd
      have hxdig : x.isDigit = true := List.mem_takeWhile_imp hx
      obtain ⟨hx1, hx2⟩ := char_digit_bounds hxdig
      rw [← hdx]
      constructor
      · omega
      · omega
    refine Inv_iff.mpr ⟨?_, fun h0 => ?_⟩
    · show normDigits ((s3.takeWhile (fun c => c.isDigit)).map
        (fun c => (c.toNat : Int) - 48))
      rw [hcons, List.map_cons]
      refine normDigits_cons.mpr ⟨?_, fun hh0 => ?_⟩
      · have hok2 := hdigOK
        rw [hcons, List.map_cons] at hok2
        exact hok2
      · exfalso
        have : (48 : Int) ≤ c.toNat - 48 := by
          have := hc49
          omega
        omega
    · exfalso
      have h0' : (s3.takeWhile (fun c => c.isDigit)).map
          (fun c => (c.toNat : Int) - 48) = [0] := h0
      rw [hcons, List.map_cons] at h0'
      have := (List.cons.inj h0').1
      omega

end InfiniteInt

namespace InfiniteInt

/-! ### Stream extraction -/

/-- Every value produced by stream extraction satisfies the representation
invariant. -/
theorem parseII_Inv (input : List Char) : Inv (parseII input).1 := by
  simp only [parseII, apply_ite Prod.fst]
  exact parse_core_Inv _ _
    (fun c rest h => @dropWhile_head_false (fun x => x == '0') _ c rest h)

/-- Reduction of `parseII` on a stream whose whitespace-stripped remainder
starts with a minus sign. -/
theorem parseII_minus_red (input : List Char) (rest : List Char)
    (h : input.dropWhile (fun c => c.isWhitespace) = '-' :: rest) :
    parseII input =
      (if ((rest.dropWhile (fun c => c == '0')).takeWhile
            (fun c => c.isDigit)).isEmpty = true then
        ({ digits := [0], isNegative := false },
          '-' :: (rest.dropWhile (fun c => c == '0')).dropWhile
            (fun c => c.isDigit))
      else
        ({ digits :=
             ((rest.dropWhile (fun c => c == '0')).takeWhile
               (fun c => c.isDigit)).map (fun c => (c.toNat : Int) - 48)
           isNegative := true },
          (rest.dropWhile (fun c => c == '0')).dropWhile
            (fun c => c.isDigit))) := by
  simp only [parseII, h]
  simp

/-- If extraction from a stream that (after whitespace) starts with `-`
produces a negative value, then the character right after the `-` is a
decimal digit. -/
theorem parseII_minus_digit (input rest : List Char)
    (h : input.dropWhile (fun c => c.isWhitespace) = '-' :: rest)
    (hneg : (parseII input).1.isNegative = true) :
    ∃ c r2, rest = c :: r2 ∧ c.isDigit = true := by
  rw [parseII_minus_red input rest h] at hneg
  by_cases hE : ((rest.dropWhile (fun c => c == '0')).takeWhile
      (fun c => c.isDigit)).isEmpty = true
  · rw [if_pos hE] at hneg
    exact absurd hneg (by simp)
  · cases hx : (rest.dropWhile (fun c => c == '0')).takeWhile
        (fun c => c.isDigit) with
    | nil => exact absurd (by rw [hx]; rfl) hE
    | cons c r2 =>
      obtain ⟨hcd, l2, hl2⟩ := takeWhile_head hx
      cases rest with
      | nil =>
        rw [List.dropWhile_nil] at hl2
        exact absurd hl2 (by simp)
      | cons c0 r0 =>
        by_cases h0 : (c0 == '0') = true
        · have hc0 : c0 = '0' := by simpa using h0
          exact ⟨c0, r0, rfl, by rw [hc0]; decide⟩
        · rw [List.dropWhile_cons, if_neg h0] at hl2
          have hc := (List.cons.inj hl2).1
          exact ⟨c0, r0, rfl, by rw [hc]; exact hcd⟩
/-- If the character right after a leading `-` is not a decimal digit, the
extracted value is zero with positive sign and the `-` is put back at the
head of the remaining stream. -/
theorem parseII_minus_pushback (input rest : List Char)
    (h : input.dropWhile (fun c => c.isWhitespace) = '-' :: rest)
    (hnd : ∀ c r2, rest = c :: r2 → c.isDigit = false) :
    parseII input = ({ digits := [0], isNegative := false }, '-' :: rest) := by
  have hs3 : rest.dropWhile (fun c => c == '0') = rest := by
    cases rest with
    | nil => rfl
    | cons c r2 =>
      have hcd : c.isDigit = false := hnd c r2 rfl
      have hc0 : ¬((c == '0') = true) := by
        intro hb
        have hc : c = '0' := by simpa using hb
        rw [hc] at hcd
        exact absurd hcd (by decide)
      rw [List.dropWhile_cons, if_neg hc0]
  have hds : rest.takeWhile (fun c => c.isDigit) = [] := by
    cases rest with
    | nil => rfl
    | cons c r2 =>
      rw [List.takeWhile_cons, if_neg (by simp [hnd c r2 rfl])]
  have hs4 : rest.dropWhile (fun c => c.isDigit) = rest := by
    cases rest with
    | nil => rfl
    | cons c r2 =>
      rw [List.dropWhile_cons, if_neg (by simp [hnd c r2 rfl])]
  rw [parseII_minus_red input rest h, hs3, hds, hs4]
  rfl

end InfiniteInt

namespace InfiniteInt

/-! ### The claims -/

/-- Claim C1: for operands satisfying the representation invariant,
`operator+` represents `value a + value b` and `operator-` represents
`value a - value b`; the operators dispatch by sign: matching signs add
magnitudes and keep the common sign for `+`, differing signs add magnitudes
and take the left operand's sign for `-`, and the remaining cases delegate
to the magnitude-subtraction routine `subtract`. -/
theorem claimC1 (a b : InfiniteInt) (ha : Inv a) (hb : Inv b) :
    value (opAdd a b) = value a + value b ∧
    value (opSub a b) = value a - value b ∧
    (a.isNegative = b.isNegative →
      opAdd a b = { add a b with isNegative := a.isNegative } ∧
      opSub a b = subtract a b) ∧
    (a.isNegative ≠ b.isNegative →
      opSub a b = { add a b with isNegative := a.isNegative } ∧
      opAdd a b = subtract a b) := by
  refine ⟨(opAdd_spec ha hb).2, (opSub_spec ha hb).2, fun hs => ?_,
    fun hne => ?_⟩
  · exact ⟨by simp only [opAdd, if_pos hs],
      by simp only [opSub, if_neg (not_ne_iff.mpr hs)]⟩
  · exact ⟨by simp only [opSub, if_pos hne],
      by simp only [opAdd, if_neg hne]⟩

/-- Witness for C1 at concrete inputs. -/
theorem claimC1_witness :
    Inv (ofInt 7) ∧ Inv (ofInt (-3)) ∧
      value (opAdd (ofInt 7) (ofInt (-3)))
        = value (ofInt 7) + value (ofInt (-3)) :=
  ⟨by decide, by decide, (claimC1 (ofInt 7) (ofInt (-3)) (by decide)
    (by decide)).1⟩

/-- Claim C2 (amended): the claim as stated in the spec is refuted by
`claimC2_counterexample` (in a magnitude subtraction the result can be
negative although the larger-magnitude operand was non-negative, e.g.
`3 - 5`).  What the code does guarantee: in every magnitude-subtraction
case (`+` on differing signs, `-` on matching signs) the result's sign is
negative exactly when the exact numeric result is negative, and a numeric
result of zero is forced positive. -/
theorem claimC2 (a b : InfiniteInt) (ha : Inv a) (hb : Inv b) :
    (a.isNegative ≠ b.isNegative →
      ((opAdd a b).isNegative = true ↔ value a + value b < 0)) ∧
    (a.isNegative = b.isNegative →
      ((opSub a b).isNegative = true ↔ value a - value b < 0)) ∧
    (value a + value b = 0 → (opAdd a b).isNegative = false) ∧
    (value a - value b = 0 → (opSub a b).isNegative = false) := by
  obtain ⟨hai, hav⟩ := opAdd_spec ha hb
  obtain ⟨hsi, hsv⟩ := opSub_spec ha hb
  have hA := hai.neg_iff_value_neg
  have hS := hsi.neg_iff_value_neg
  rw [hav] at hA
  rw [hsv] at hS
  refine ⟨fun _ => hA, fun _ => hS, fun h0 => ?_, fun h0 => ?_⟩
  · rw [← Bool.not_eq_true, hA]; omega
  · rw [← Bool.not_eq_true, hS]; omega

/-- Counterexample to C2 as stated: in `3 - 5` (matching signs, so a
magnitude subtraction) the larger-magnitude operand `5` is non-negative and
the numeric result `-2` is nonzero, yet the result's sign is negative. -/
theorem claimC2_counterexample :
    (ofInt 3).isNegative = false ∧ (ofInt 5).isNegative = false ∧
    lt (ofInt 3) (ofInt 5) = true ∧
    beq (opSub (ofInt 3) (ofInt 5)) (ofInt 0) = false ∧
    (opSub (ofInt 3) (ofInt 5)).isNegative = true := by decide

/-- Witness for C2 at concrete inputs (the matching-sign subtraction case). -/
theorem claimC2_witness :
    Inv (ofInt 3) ∧ Inv (ofInt 5) ∧
      ((ofInt 3).isNegative = (ofInt 5).isNegative →
        ((opSub (ofInt 3) (ofInt 5)).isNegative = true ↔
          value (ofInt 3) - value (ofInt 5) < 0)) :=
  ⟨by decide, by decide, (claimC2 (ofInt 3) (ofInt 5) (by decide)
    (by decide)).2.1⟩

/-- Claim C3: for operands satisfying the representation invariant,
`operator*` represents `value a * value b`; if either operand is zero the
result is the zero representation (single digit 0, positive sign);
otherwise the result's sign is the exclusive-or of the operand signs; and
`a * InfiniteInt(0) == InfiniteInt(0)` and `a * InfiniteInt(1) == a` under
`operator==`. -/
theorem claimC3 (a b : InfiniteInt) (ha : Inv a) (hb : Inv b) :
    value (opMul a b) = value a * value b ∧
    ((value a = 0 ∨ value b = 0) →
      opMul a b = { digits := [0], isNegative := false }) ∧
    (value a ≠ 0 → value b ≠ 0 →
      (opMul a b).isNegative = (a.isNegative != b.isNegative)) ∧
    beq (opMul a (ofInt 0)) (ofInt 0) = true ∧
    beq (opMul a (ofInt 1)) a = true := by
  obtain ⟨hmi, hmv⟩ := opMul_spec ha hb
  refine ⟨hmv, fun h0 => ?_, fun hna hnb => ?_, ?_, ?_⟩
  · have hz : value (opMul a b) = 0 := by
      rw [hmv]; rcases h0 with h | h <;> rw [h] <;> ring
    have heq := value_inj hmi (Inv_ofInt 0) (by rw [hz, value_ofInt])
    rw [heq, ofInt_zero]
  · have hA := ha.neg_iff_value_neg
    have hB := hb.neg_iff_value_neg
    have hM := hmi.neg_iff_value_neg
    rw [hmv] at hM
    by_cases hx : a.isNegative = true
    · have h1 : value a < 0 := hA.mp hx
      by_cases hy : b.isNegative = true
      · have h2 : value b < 0 := hB.mp hy
        have hp : 0 < value a * value b := mul_pos_of_neg_of_neg h1 h2
        have hres : (opMul a b).isNegative = false := by
          rw [← Bool.not_eq_true, hM]; omega
        rw [hres, hx, hy]; rfl
      · have hy' : b.isNegative = false := by simpa using hy
        have h2 : ¬ value b < 0 := fun hvb =>
          Bool.false_ne_true ((hy' ▸ hB).mpr hvb)
        have hp : value a * value b < 0 :=
          mul_neg_of_neg_of_pos h1 (by omega)
        rw [hM.mpr hp, hx, hy']; rfl
    · have hx' : a.isNegative = false := by simpa using hx
      have h1 : ¬ value a < 0 := fun hva =>
        Bool.false_ne_true ((hx' ▸ hA).mpr hva)
      by_cases hy : b.isNegative = true
      · have h2 : value b < 0 := hB.mp hy
        have hp : value a * value b < 0 :=
          mul_neg_of_pos_of_neg (by omega) h2
        rw [hM.mpr hp, hx', hy]; rfl
      · have hy' : b.isNegative = false := by simpa using hy
        have h2 : ¬ value b < 0 := fun hvb =>
          Bool.false_ne_true ((hy' ▸ hB).mpr hvb)
        have hp : 0 < value a * value b :=
          mul_pos (by omega) (by omega)
        have hres : (opMul a b).isNegative = false := by
          rw [← Bool.not_eq_true, hM]; omega
        rw [hres, hx', hy']; rfl
  · obtain ⟨h0i, h0v⟩ := opMul_spec ha (Inv_ofInt 0)
    refine (beq_iff_value h0i (Inv_ofInt 0)).mpr ?_
    rw [h0v, value_ofInt]; ring
  · obtain ⟨h1i, h1v⟩ := opMul_spec ha (Inv_ofInt 1)
    refine (beq_iff_value h1i ha).mpr ?_
    rw [h1v, value_ofInt]; ring

/-- Witness for C3 at concrete inputs. -/
theorem claimC3_witness :
    Inv (ofInt (-4)) ∧ Inv (ofInt 6) ∧
      value (opMul (ofInt (-4)) (ofInt 6))
        = value (ofInt (-4)) * value (ofInt 6) :=
  ⟨by decide, by decide, (claimC3 (ofInt (-4)) (ofInt 6) (by decide)
    (by decide)).1⟩

end InfiniteInt

namespace InfiniteInt

/-- Claim C4 (amended): the claim as stated is refuted by
`claimC4_counterexample`: the public mutator `setNegative` can attach a
negative sign to the zero representation, which violates the invariant's
"a zero value never has a negative sign flag" clause.  What the code does
guarantee: every InfiniteInt produced by the default constructor, int
construction, stream extraction, `+`, `-` and `*` (on invariant-satisfying
operands) satisfies the representation invariant. -/
theorem claimC4 (n : Int) (input : List Char) (a b : InfiniteInt)
    (ha : Inv a) (hb : Inv b) :
    Inv { digits := [0], isNegative := false } ∧
    Inv (ofInt n) ∧ Inv (parseII input).1 ∧
    Inv (opAdd a b) ∧ Inv (opSub a b) ∧ Inv (opMul a b) :=
  ⟨by decide, Inv_ofInt n, parseII_Inv input,
    (opAdd_spec ha hb).1, (opSub_spec ha hb).1, (opMul_spec ha hb).1⟩

/-- Counterexample to C4 as stated: the public mutator `setNegative` yields
an InfiniteInt that fails the invariant check (negative zero). -/
theorem claimC4_counterexample :
    checkInv (ofInt 0) = true ∧
    checkInv (setNegative true (ofInt 0)) = false := by decide

/-- Witness for C4 at concrete inputs. -/
theorem claimC4_witness :
    Inv (ofInt 2) ∧ Inv (ofInt (-9)) ∧
      (Inv { digits := [0], isNegative := false } ∧ Inv (ofInt 5) ∧
        Inv (parseII ['7']).1 ∧
        Inv (opAdd (ofInt 2) (ofInt (-9))) ∧
        Inv (opSub (ofInt 2) (ofInt (-9))) ∧
        Inv (opMul (ofInt 2) (ofInt (-9)))) :=
  ⟨by decide, by decide,
    claimC4 5 ['7'] (ofInt 2) (ofInt (-9)) (by decide) (by decide)⟩

/-- Claim C5: for every int `n` in the native range (including INT_MIN,
whose magnitude is built by peeling off the least-significant digit with
truncating modulo and division before negating), `InfiniteInt(n)`
converts back to int without a range error and yields exactly `n`; the
conversion's native-int arithmetic is modelled modulo 2^32 by `wrap32`. -/
theorem claimC5 (n : Int) (h1 : intMinVal ≤ n) (h2 : n ≤ intMaxVal) :
    toInt (ofInt n) = Except.ok n := by
  have h := toInt_ok (Inv_ofInt n) (by rw [value_ofInt]; exact h1)
    (by rw [value_ofInt]; exact h2)
  rw [value_ofInt] at h
  exact h

/-- Witness for C5 at INT_MIN itself. -/
theorem claimC5_witness :
    intMinVal ≤ -2147483648 ∧ (-2147483648 : Int) ≤ intMaxVal ∧
      toInt (ofInt (-2147483648)) = Except.ok (-2147483648) :=
  ⟨by decide, by decide, claimC5 (-2147483648) (by decide) (by decide)⟩

/-- Claim C6: stream extraction consumes a leading `-` (after skipping
whitespace) only if a decimal digit immediately follows it — if the result
is negative, the character after the `-` was a digit; if no digit follows,
the `-` is put back at the head of the remaining stream and the extracted
value is zero with positive sign; in particular parsing the text `-` yields
a value equal (under `operator==`) to `InfiniteInt(0)` and leaves the `-`
unconsumed. -/
theorem claimC6 (input rest : List Char)
    (h : input.dropWhile (fun c => c.isWhitespace) = '-' :: rest) :
    ((parseII input).1.isNegative = true →
      ∃ c r2, rest = c :: r2 ∧ c.isDigit = true) ∧
    ((∀ c r2, rest = c :: r2 → c.isDigit = false) →
      parseII input = ({ digits := [0], isNegative := false }, '-' :: rest)) ∧
    parseII ['-'] = ({ digits := [0], isNegative := false }, ['-']) ∧
    beq (parseII ['-']).1 (ofInt 0) = true :=
  ⟨parseII_minus_digit input rest h, parseII_minus_pushback input rest h,
    by decide, by decide⟩

/-- Witness for C6 at a concrete stream. -/
theorem claimC6_witness :
    (List.dropWhile (fun c => c.isWhitespace) ['-', 'a'] = '-' :: ['a']) ∧
      parseII ['-', 'a'] = ({ digits := [0], isNegative := false },
        '-' :: ['a']) :=
  ⟨by decide, (claimC6 ['-', 'a'] ['a'] (by decide)).2.1
    (by intro c r2 hcr
        injection hcr with h1 h2
        rw [← h1]; decide)⟩

/-- Claim C7: for operands satisfying the representation invariant, exactly
one of `a < b`, `a == b`, `b < a` holds. -/
theorem claimC7 (a b : InfiniteInt) (ha : Inv a) (hb : Inv b) :
    (lt a b = true ∨ beq a b = true ∨ lt b a = true) ∧
    ¬(lt a b = true ∧ beq a b = true) ∧
    ¬(lt a b = true ∧ lt b a = true) ∧
    ¬(beq a b = true ∧ lt b a = true) := by
  rw [lt_iff_value ha hb, lt_iff_value hb ha, beq_iff_value ha hb]
  omega

/-- Witness for C7 at concrete inputs. -/
theorem claimC7_witness :
    Inv (ofInt 1) ∧ Inv (ofInt 2) ∧
      ((lt (ofInt 1) (ofInt 2) = true ∨ beq (ofInt 1) (ofInt 2) = true ∨
          lt (ofInt 2) (ofInt 1) = true) ∧
        ¬(lt (ofInt 1) (ofInt 2) = true ∧ beq (ofInt 1) (ofInt 2) = true) ∧
        ¬(lt (ofInt 1) (ofInt 2) = true ∧ lt (ofInt 2) (ofInt 1) = true) ∧
        ¬(beq (ofInt 1) (ofInt 2) = true ∧ lt (ofInt 2) (ofInt 1) = true)) :=
  ⟨by decide, by decide, claimC7 (ofInt 1) (ofInt 2) (by decide) (by decide)⟩

end InfiniteInt

namespace InfiniteInt

/-- Claim C8: `operator int` signals a range error exactly when the value is
below INT_MIN or above INT_MAX, and otherwise returns the value; in the
embedding the conversion is a pure function of the receiver (the C++
member is declared on a const receiver and performs no mutation), so the
InfiniteInt itself is unchanged in every case by construction. -/
theorem claimC8 (x : InfiniteInt) (hx : Inv x) :
    (toInt x = Except.error () ↔
      (value x < intMinVal ∨ intMaxVal < value x)) ∧
    (intMinVal ≤ value x → value x ≤ intMaxVal →
      toInt x = Except.ok (value x)) :=
  ⟨toInt_error_iff hx, fun h1 h2 => toInt_ok hx h1 h2⟩

/-- Witness for C8 at a concrete input. -/
theorem claimC8_witness :
    Inv (ofInt 7) ∧
      ((toInt (ofInt 7) = Except.error () ↔
          (value (ofInt 7) < intMinVal ∨ intMaxVal < value (ofInt 7))) ∧
        (intMinVal ≤ value (ofInt 7) → value (ofInt 7) ≤ intMaxVal →
          toInt (ofInt 7) = Except.ok (value (ofInt 7)))) :=
  ⟨by decide, claimC8 (ofInt 7) (by decide)⟩

end InfiniteInt

/-- Claim C9: on an empty DEIntQueue (`numEntries() == 0`) each of
`front`, `back`, `popFront` and `popBack` fails with the empty-container
logic error (and, the operations being modelled as pure functions, the
queue is not modified); on a non-empty queue each of them succeeds. -/
theorem claimC9 (q : DEIntQueue) :
    (q.numEntries = 0 →
      q.front = Except.error () ∧ q.back = Except.error () ∧
      q.popFront = Except.error () ∧ q.popBack = Except.error ()) ∧
    (q.numEntries ≠ 0 →
      (∃ d, q.front = Except.ok d) ∧ (∃ d, q.back = Except.ok d) ∧
      (∃ r, q.popFront = Except.ok r) ∧ (∃ r, q.popBack = Except.ok r)) := by
  cases q with | mk l =>
  cases l with
  | nil =>
    exact ⟨fun _ => ⟨rfl, rfl, rfl, rfl⟩, fun hne => absurd rfl hne⟩
  | cons d rest =>
    refine ⟨fun h0 => absurd h0 (by simp [DEIntQueue.numEntries]; omega), fun _ => ?_⟩
    refine ⟨⟨d, rfl⟩, ?_, ⟨⟨rest⟩, rfl⟩, ⟨⟨(d :: rest).dropLast⟩, rfl⟩⟩
    cases hg : (d :: rest).getLast? with
    | none => exact absurd hg (by simp)
    | some x => exact ⟨x, by unfold DEIntQueue.back; rw [hg]⟩

/-- Witness for C9 on a concrete empty and a concrete non-empty queue. -/
theorem claimC9_witness :
    (DEIntQueue.front ⟨[]⟩ = Except.error () ∧
      DEIntQueue.back ⟨[]⟩ = Except.error () ∧
      DEIntQueue.popFront ⟨[]⟩ = Except.error () ∧
      DEIntQueue.popBack ⟨[]⟩ = Except.error ()) ∧
    ((∃ d, DEIntQueue.front ⟨[5]⟩ = Except.ok d) ∧
      (∃ d, DEIntQueue.back ⟨[5]⟩ = Except.ok d) ∧
      (∃ r, DEIntQueue.popFront ⟨[5]⟩ = Except.ok r) ∧
      (∃ r, DEIntQueue.popBack ⟨[5]⟩ = Except.ok r)) :=
  ⟨(claimC9 ⟨[]⟩).1 rfl, (claimC9 ⟨[5]⟩).2 (by decide)⟩

namespace InfiniteInt

/-- Claim C10: equality and ordering are defined over the representation,
not the represented number: the negative zero produced by `setNegative`
compares unequal to and strictly less than `InfiniteInt(0)` although both
represent the number zero. -/
theorem claimC10 :
    value (setNegative true (ofInt 0)) = 0 ∧ value (ofInt 0) = 0 ∧
    beq (setNegative true (ofInt 0)) (ofInt 0) = false ∧
    lt (setNegative true (ofInt 0)) (ofInt 0) = true := by decide

end InfiniteInt
